import Mathlib

/-!
Verification development for the `cliapp` command-line application
framework (`cliapp/app.py`).  The Python source is shallowly embedded:

* the byte-size parser `Application._parse_human_size` (app.py:202-223),
  including the IEEE-754 double-precision arithmetic that Python's
  `float` performs, is embedded over natural-number fractions;
* the environment-variable name computation `Application._envname`
  (app.py:278-288) and its use by `run` (app.py:261-276);
* the exception-to-exit-code mapping of `Application._run`
  (app.py:290-310);
* the settings registry built on `optparse`
  (`_init_parser`, the `add_*_setting` factories, `get_setting`,
  `parse_args`; app.py:81-253, 330-339), with the behaviour of the
  Python 2 `optparse` module embedded for the option kinds the
  application uses.

Strings are modelled as their lists of character codes where character
arithmetic is needed; `Char.toNat` bridges to Lean `String`s.
-/

/-! ### Character and string helpers -/

/-- Character codes of a Lean string, in order.  The Python source
operates on byte/character sequences; we take the code points. -/
def strCodes (s : String) : List ℕ :=
  s.data.map Char.toNat

/-- Python `str.lower` on one ASCII character code: `A`-`Z` map to
`a`-`z`, everything else is unchanged (app.py:207 `size.lower()`). -/
def pyLowerC (n : ℕ) : ℕ :=
  if 65 ≤ n ∧ n ≤ 90 then n + 32 else n

/-- Python `str.upper` on one ASCII character code: `a`-`z` map to
`A`-`Z`, everything else is unchanged. -/
def pyUpperC (n : ℕ) : ℕ :=
  if 97 ≤ n ∧ n ≤ 122 then n - 32 else n

/-- The character class `\d` of the Python 2 `re` module on byte
strings: the ASCII digits `0`-`9` (codes 48-57). -/
def isDigitC (n : ℕ) : Bool :=
  48 ≤ n && n ≤ 57

/-- The character class `\s` of the Python 2 `re` module on byte
strings: space, tab, newline, carriage return, form feed, vertical
tab. -/
def isSpaceC (n : ℕ) : Bool :=
  n == 32 || n == 9 || n == 10 || n == 13 || n == 12 || n == 11

/-! ### Exact binary rounding: the model of Python `float`

`_parse_human_size` computes `int(float(numstr) * multiplier)`.
Python floats are IEEE-754 binary64 values; `float(numstr)` is the
decimal string correctly rounded to nearest (ties to even), the
multiplication is again correctly rounded, values at or above `2^1024`
become `inf`, and `int(inf)` raises `OverflowError`.  We embed this
arithmetic exactly over ℕ: a nonnegative rational is a pair
`(A, B)` meaning `A / B`, and a nonnegative double is a pair
`(m, e) : ℕ × ℤ` meaning `m * 2^e`. -/

/-- Fuel-driven binary logarithm: `lgAux fuel n = ⌊log₂ n⌋` whenever
`n ≤ fuel` and `1 ≤ n`.  (Structural recursion on the fuel keeps the
function kernel-reducible.) -/
def lgAux : ℕ → ℕ → ℕ
  | 0, _ => 0
  | fuel + 1, n => if n ≤ 1 then 0 else lgAux fuel (n / 2) + 1

/-- `⌊log₂ n⌋` for `n ≥ 1` (and `0` at `0`). -/
def lg (n : ℕ) : ℕ :=
  lgAux n n

/-- Decides `A / B ≥ 2^e` for a fraction of naturals and `e : ℤ`
(at most one of the two `toNat` exponents is nonzero). -/
def ge2pow (A B : ℕ) (e : ℤ) : Bool :=
  B * 2 ^ e.toNat ≤ A * 2 ^ (-e).toNat

/-- `⌊log₂ (A / B)⌋` for positive `A`, `B`: first guess
`⌊log₂ A⌋ - ⌊log₂ B⌋`, which is off by at most one, then correct by a
single comparison. -/
def flog2 (A B : ℕ) : ℤ :=
  let e0 : ℤ := (lg A : ℤ) - (lg B : ℤ)
  if ge2pow A B e0 then e0 else e0 - 1

/-- Round `a / b` to the nearest integer, ties to even. -/
def rneNat (a b : ℕ) : ℕ :=
  let t := a / b
  let r := a % b
  if 2 * r < b then t
  else if b < 2 * r then t + 1
  else if t % 2 = 0 then t else t + 1

/-- Correctly round the nonnegative fraction `A / B` (with `B > 0`) to
an IEEE-754 binary64 value, returned as `some (m, e)` denoting
`m * 2^e`; `none` is `inf` (the rounded value reached `2^1024`).
Normal values use 53 significant bits, subnormals are rounded at
`2^-1074`. -/
def roundDouble (A B : ℕ) : Option (ℕ × ℤ) :=
  if A = 0 then some (0, 0)
  else
    let e := flog2 A B
    let ec := max e (-1022)
    let prec : ℤ := 52 - ec
    let m :=
      if 0 ≤ prec then rneNat (A * 2 ^ prec.toNat) B
      else rneNat A (B * 2 ^ (-prec).toNat)
    if 2 ^ (1076 - ec).toNat ≤ m then none else some (m, ec - 52)

/-- The value `M * 2^e` as a fraction of naturals. -/
def dyadicToFrac (M : ℕ) (e : ℤ) : ℕ × ℕ :=
  if 0 ≤ e then (M * 2 ^ e.toNat, 1) else (M, 2 ^ (-e).toNat)

/-- `⌊m * 2^e⌋` for naturals `m` (Python `int()` truncates toward zero;
all values here are nonnegative, so truncation is the floor). -/
def dyadicFloor (m : ℕ) (e : ℤ) : ℕ :=
  if 0 ≤ e then m * 2 ^ e.toNat else m / 2 ^ (-e).toNat

/-! ### The regular-expression match of `_parse_human_size`

The pattern (app.py:205-206, `re.X` so layout whitespace is ignored) is
`(?P<number>\d+(\.\d+)?)\s*(?P<unit>k|ki|m|mi|g|gi|t|ti)?b?\s*$`,
matched with `re.match` (anchored at the start) against the lowercased
input.  Backtracking resolves deterministically: the digit runs are
maximal (no later pattern element can consume a digit), the fraction
group matches whenever a dot with at least one following digit is
present, the `\s*` is maximal (no later element consumes whitespace),
and the unit alternatives are tried left to right, each accepted when
the remaining input is an optional `b` followed by whitespace. -/

/-- Value of a list of digit codes read in base 10. -/
def natValue (ds : List ℕ) : ℕ :=
  ds.foldl (fun a d => 10 * a + (d - 48)) 0

/-- The remaining input after the optional unit is an optional literal
`b` followed by trailing whitespace (`b? \s*$`). -/
def suffixOk : List ℕ → Bool
  | [] => true
  | c :: t => if c = 98 then t.all isSpaceC else isSpaceC c && t.all isSpaceC

/-- The unit alternatives in the order the regex tries them, with their
multipliers (app.py:213-222): decimal k/m/g/t, binary ki/mi/gi/ti. -/
def unitTable : List (List ℕ × ℕ) :=
  [([107], 10 ^ 3), ([107, 105], 2 ^ 10),
   ([109], 10 ^ 6), ([109, 105], 2 ^ 20),
   ([103], 10 ^ 9), ([103, 105], 2 ^ 30),
   ([116], 10 ^ 12), ([116, 105], 2 ^ 40)]

/-- Match `(?P<unit>...)? b? \s*$` against the input after the number
and the following whitespace: the first unit alternative that is a
prefix with an admissible remainder wins, then the empty unit is
tried.  Returns the multiplier. -/
def findUnit (t : List ℕ) : Option ℕ :=
  match unitTable.find? (fun p => p.1.isPrefixOf t && suffixOk (t.drop p.1.length)) with
  | some p => some p.2
  | none => if suffixOk t then some 1 else none

/-- Match `(?P<number>\d+(\.\d+)?)` at the start of the input.  Returns
the number as an exact fraction `(A, B)` together with the rest of the
input.  A dot that is not followed by a digit is left in the rest (the
group then matched nothing), which makes the overall match fail. -/
def matchNumber (s : List ℕ) : Option (ℕ × ℕ × List ℕ) :=
  let ds := s.takeWhile isDigitC
  if ds.isEmpty then none
  else
    match s.dropWhile isDigitC with
    | c :: r2 =>
      if c = 46 then
        let fs := r2.takeWhile isDigitC
        if fs.isEmpty then some (natValue ds, 1, c :: r2)
        else
          some (natValue ds * 10 ^ fs.length + natValue fs, 10 ^ fs.length,
            r2.dropWhile isDigitC)
      else some (natValue ds, 1, c :: r2)
    | [] => some (natValue ds, 1, [])

/-- The whole regular-expression match, on lowercased codes: number as
an exact fraction plus the unit multiplier, or `none` when the input
does not match. -/
def matchSize (s : List ℕ) : Option (ℕ × ℕ × ℕ) :=
  match matchNumber s with
  | none => none
  | some r =>
    match findUnit (r.2.2.dropWhile isSpaceC) with
    | none => none
    | some mult => some (r.1, r.2.1, mult)

/-- `int(float(number) * multiplier)` for the matched number `A / B`:
round the number to a double, multiply by the (exactly representable)
multiplier with one more rounding, truncate; `none` is the
`OverflowError` of `int(inf)`. -/
def sizeValue (A B mult : ℕ) : Option ℤ :=
  match roundDouble A B with
  | none => none
  | some me =>
    let f := dyadicToFrac (me.1 * mult) me.2
    match roundDouble f.1 f.2 with
    | none => none
    | some me2 => some (dyadicFloor me2.1 me2.2)

/-- `Application._parse_human_size` (app.py:202-223).  On inputs the
regex rejects it returns `0`; otherwise it computes
`int(float(number) * multiplier)` in IEEE-754 binary64 arithmetic.
`none` models the `OverflowError` that `int(inf)` raises when the
value reaches the double range's end. -/
def _parse_human_size (size : String) : Option ℤ :=
  match matchSize ((strCodes size).map pyLowerC) with
  | none => some 0
  | some r => sizeValue r.1 r.2.1 r.2.2

/-! ### `_envname` and the profiling environment variable -/

/-- `True` on the codes of the characters Python's
`'abcdefghijklmnopqrstuvwxyz0123456789'.upper()`-extended `ok` string
contains (app.py:285-286): ASCII lowercase, digits, ASCII uppercase. -/
def isOkChar (n : ℕ) : Bool :=
  (97 ≤ n && n ≤ 122) || (48 ≤ n && n ≤ 57) || (65 ≤ n && n ≤ 90)

/-- `os.path.basename` on POSIX: the part after the last `/`. -/
def basenameC (l : List ℕ) : List ℕ :=
  (l.reverse.takeWhile (fun n => n ≠ 47)).reverse

/-- `Application._envname` on codes (app.py:278-288): basename, cut at
the first `.` when one is present, then every `ok` character uppercased
and every other character replaced by `_` (code 95). -/
def envnameC (l : List ℕ) : List ℕ :=
  let b := basenameC l
  let b2 := if 46 ∈ b then b.takeWhile (fun n => n ≠ 46) else b
  b2.map (fun n => if isOkChar n then pyUpperC n else 95)

/-- `Application._envname` on strings. -/
def _envname (progname : String) : String :=
  String.mk ((envnameC (strCodes progname)).map Char.ofNat)

/-- The environment variable `run` consults (app.py:270):
`'%s_PROFILE' % self._envname(self.progname)`. -/
def profileEnvVar (progname : String) : String :=
  _envname progname ++ "_PROFILE"

/-! ### `_run`: outcomes to exit codes

`_run` (app.py:290-310) wraps the application body in
`try/except SystemExit/except KeyboardInterrupt/except Exception`.
We embed it as a function of the body's outcome.  `SystemExit` and
`KeyboardInterrupt` derive from `BaseException`, not `Exception`, so
the three clauses are disjoint and ordering is immaterial; the
remaining uncaught kinds (e.g. `GeneratorExit`) cannot arise here.
A `sys.exit` code of `None` (exit status 0 at the shell) is modelled
as `Option ℤ`. -/

/-- How the body of `_run` (settings, parsing, processing) ends. -/
inductive BodyOutcome where
  | normal : BodyOutcome
  | sysExit (code : Option ℤ) : BodyOutcome
  | interrupt : BodyOutcome
  | failure (msg : String) : BodyOutcome
deriving DecidableEq

/-- The observable effect of `_run`: the `sys.exit` argument (if any)
and the lines written to the `stderr` stream. -/
structure RunEffect where
  exitArg : Option (Option ℤ)
  stderrOut : List String
deriving DecidableEq

/-- `Application._run` (app.py:290-310): `SystemExit e` re-raises
`sys.exit(e.code)`; `KeyboardInterrupt` becomes `sys.exit(255)`; any
other `Exception e` writes `'%s\n' % str(e)` to `stderr` and becomes
`sys.exit(1)`; a normal body return exits nothing. -/
def _run : BodyOutcome → RunEffect
  | .normal => ⟨none, []⟩
  | .sysExit c => ⟨some c, []⟩
  | .interrupt => ⟨some (some 255), []⟩
  | .failure m => ⟨some (some 1), [m ++ "\n"]⟩

/-! ### The settings registry: `optparse` subset

The factories of `Application` delegate to Python 2's `optparse`.  We
embed the subset of `optparse` those factories exercise:

* an option is a list of option strings, a destination and an action
  (`store`, typed `choice` store, typed `long` store, `append`,
  `store_true`, or one of the two callbacks the application defines);
* `parse_args` starts from a copy of the parser defaults, validates
  string defaults of choice options (`check_value`), processes the
  arguments left to right with interspersed positional arguments and
  the `--` terminator, and on a usage error prints usage and exits
  with status 2;
* `append` mutates the list object shared with the defaults dictionary
  (so a declared default list is extended, not replaced, and the
  mutation is visible in the parser defaults afterwards).

Not modelled, because no claim and no registration in this repository
reaches them: long-option abbreviation matching (lookups are exact),
the automatic `--help`/`--version` options, option-conflict errors on
re-registering an existing option string, and `%default` interpolation
in help texts. -/

/-- A Python value stored in the options/defaults mappings. -/
inductive PyVal where
  | str (s : String)
  | int (n : ℤ)
  | list (l : List String)
  | bool (b : Bool)
  | none
deriving DecidableEq

/-- The two callbacks `app.py` registers through
`add_callback_setting`. -/
inductive Callback where
  | dumpSettingNames
  | parseHumanSize
deriving DecidableEq

/-- The `optparse` actions the factories use. -/
inductive OptAction where
  | store
  | storeChoice (choices : List String)
  | storeInt
  | append
  | storeTrue
  | callback (cb : Callback) (nargs : ℕ)
deriving DecidableEq

/-- One registered option. -/
structure Opt where
  optNames : List String
  dest : String
  action : OptAction
deriving DecidableEq

/-- The mutable value mapping (`parser.defaults`, `parser.values`):
an insertion-ordered association list. -/
abbrev Values := List (String × PyVal)

/-- Update-or-insert into a value mapping. -/
def updateV : Values → String → PyVal → Values
  | [], k, v => [(k, v)]
  | (k', v') :: rest, k, v =>
    if k' = k then (k, v) :: rest else (k', v') :: updateV rest k v

/-- Lookup in a value mapping. -/
def lookupV : Values → String → Option PyVal
  | [], _ => Option.none
  | (k', v') :: rest, k => if k' = k then some v' else lookupV rest k

/-- The option parser state: registered options and their defaults. -/
structure Parser where
  optionList : List Opt
  defaults : Values
deriving DecidableEq

/-- `Application._attr_name` (app.py:123-130): dashes become
underscores (`'_'.join(name.split('-'))`). -/
def _attr_name (name : String) : String :=
  String.mk (name.data.map (fun c => if c = '-' then '_' else c))

/-- `Application._option_names` (app.py:112-121): single-letter names
get one dash, the rest two. -/
def _option_names (names : List String) : List String :=
  names.map (fun name => if 1 < name.data.length then "--" ++ name else "-" ++ name)


/-- `String` prefix test over the character lists (kernel-reducible). -/
def strStartsWith (s pre : String) : Bool :=
  pre.data.isPrefixOf s.data

/-- Drop the first `n` characters of a string (kernel-reducible). -/
def strDrop (s : String) (n : ℕ) : String :=
  String.mk (s.data.drop n)

/-- `optparse`'s destination for an option: derived from the first
long option string if any, else from the (single-dash) short one. -/
def destOf (onames : List String) : String :=
  match onames.find? (fun n => strStartsWith n "--") with
  | some n => _attr_name (strDrop n 2)
  | Option.none => strDrop (onames.headD "") 1

/-- `OptionParser.add_option`: append the option; a destination
without a default yet gets the implicit default `None`. -/
def Parser.add_option (p : Parser) (onames : List String) (a : OptAction) : Parser :=
  let d := destOf onames
  { optionList := p.optionList ++ [⟨onames, d, a⟩]
    defaults :=
      if (lookupV p.defaults d).isSome then p.defaults
      else updateV p.defaults d .none }

/-- `OptionParser.set_default`. -/
def Parser.set_default (p : Parser) (dest : String) (v : PyVal) : Parser :=
  { p with defaults := updateV p.defaults dest v }

/-- `OptionParser.get_option`: the registered option owning the given
option string, if any. -/
def Parser.get_option (p : Parser) (optStr : String) : Option Opt :=
  p.optionList.find? (fun o => o.optNames.contains optStr)

/-- The application state the claims are about: the option parser and
the `options` attribute, which does not exist (`Option.none`) until
`parse_args` has run (app.py:330-339 sets it). -/
structure App where
  parser : Parser
  options : Option Values
deriving DecidableEq

namespace Application

/-- `Application._set_default_value` (app.py:132-134): set the default
under the attribute name of the first setting name. -/
def _set_default_value (a : App) (names : List String) (v : PyVal) : App :=
  { a with parser := a.parser.set_default (_attr_name (names.headD "")) v }

/-- `Application.add_string_setting` (app.py:136-141). -/
def add_string_setting (a : App) (names : List String) (help : String)
    (default : String) : App :=
  let a := { a with parser := a.parser.add_option (_option_names names) .store }
  _set_default_value a names (.str default)

/-- `Application.add_string_list_setting` (app.py:143-154); the
Python `default or []` turns `None` (and `[]`) into `[]`. -/
def add_string_list_setting (a : App) (names : List String) (help : String)
    (default : Option (List String)) : App :=
  let a := { a with parser := a.parser.add_option (_option_names names) .append }
  _set_default_value a names (.list (default.getD []))

/-- `Application.add_choice_setting` (app.py:156-171).  The `default`
parameter is accepted and ignored: the registered default is
`possibilities[0]`. -/
def add_choice_setting (a : App) (names possibilities : List String)
    (help : String) (default : Option String) : App :=
  let a :=
    { a with parser := a.parser.add_option (_option_names names) (.storeChoice possibilities) }
  _set_default_value a names (.str (possibilities.headD ""))

/-- `Application.add_boolean_setting` (app.py:173-178). -/
def add_boolean_setting (a : App) (names : List String) (help : String)
    (default : Bool) : App :=
  let a := { a with parser := a.parser.add_option (_option_names names) .storeTrue }
  _set_default_value a names (.bool default)

/-- `Application.add_callback_setting` (app.py:180-200), for the two
callbacks the application defines. -/
def add_callback_setting (a : App) (names : List String) (help : String)
    (cb : Callback) (nargs : ℕ) (default : PyVal) : App :=
  let a := { a with parser := a.parser.add_option (_option_names names) (.callback cb nargs) }
  _set_default_value a names default

/-- `Application.add_bytesize_setting` (app.py:225-233). -/
def add_bytesize_setting (a : App) (names : List String) (help : String)
    (default : ℤ) : App :=
  add_callback_setting a names help .parseHumanSize 1 (.int default)

/-- `Application.add_integer_setting` (app.py:235-242). -/
def add_integer_setting (a : App) (names : List String) (help : String)
    (default : Option ℤ) : App :=
  let a := { a with parser := a.parser.add_option (_option_names names) .storeInt }
  _set_default_value a names (default.elim .none .int)

/-- `Application._init_parser` (app.py:81-99) applied to the fresh
parser: the built-in `output`, `log`, `log-level` string settings and
the `dump-setting-names` callback. -/
def init : App :=
  let a : App := ⟨⟨[], []⟩, Option.none⟩
  let a := add_string_setting a ["output"]
    "write output to named file, instead of standard output" ""
  let a := add_string_setting a ["log"] "write log entries to file" ""
  let a := add_string_setting a ["log-level"]
    "log at given level, one of debug, info, warning, error, critical, fatal" "info"
  add_callback_setting a ["dump-setting-names"]
    "write out all names of settings and quit" .dumpSettingNames 0 .none

/-- `Application.get_setting` (app.py:244-253): look the option up by
its option string, then read `self.options.<dest>`.  Every failure
mode — unknown option (`None.dest`), no `options` attribute before any
parse, missing destination — raises `AttributeError`, modelled as
`Option.none`. -/
def get_setting (a : App) (name : String) : Option PyVal :=
  match a.parser.get_option ((_option_names [name]).headD "") with
  | Option.none => Option.none
  | some o =>
    match a.options with
    | Option.none => Option.none
    | some vals => lookupV vals o.dest

end Application

/-! ### `parse_args` -/

/-- The outcome of `Application.parse_args`: success (the new
application state and the positional arguments), `sys.exit` with a
status (2 for usage errors, 0 from the `dump-setting-names` callback),
or a propagating Python exception (`OverflowError` from the byte-size
callback, `OptionValueError` from a bad choice default). -/
inductive ParseResult where
  | ok (a : App) (args : List String)
  | sysexit (code : ℤ)
  | raised
deriving DecidableEq

/-- Does the action consume a value?  (`optparse` `takes_value`; the
`dump-setting-names` callback is typed but has `nargs=0`, so it
consumes nothing, handled separately.) -/
def takesValue : OptAction → Bool
  | .store | .storeChoice _ | .storeInt | .append => true
  | .callback _ n => n != 0
  | .storeTrue => false

/-- Python `int()` on a string for `optparse`'s `long` type checker:
optional surrounding whitespace, optional sign, a nonempty digit
string. -/
def pyParseInt (s : String) : Option ℤ :=
  let t := (strCodes s).dropWhile isSpaceC
  let t := t.reverse.dropWhile isSpaceC |>.reverse
  let (sign, t) : ℤ × List ℕ :=
    match t with
    | 43 :: r => (1, r)
    | 45 :: r => (-1, r)
    | r => (1, r)
  if t ≠ [] ∧ t.all isDigitC then some (sign * natValue t) else Option.none

/-- Apply a value-taking action to a raw argument string
(`optparse` `Option.take_action` plus the callback wrapper of
app.py:189-192).  `Sum.inr` carries an abnormal result: usage error
(exit 2 on invalid choice or unparsable integer), `raised` when
`.append` meets a non-list value or the byte-size callback overflows,
exit 0 from the dump callback. -/
def doAction (vals : Values) (dest : String) (a : OptAction) (v : String) :
    Sum Values ParseResult :=
  match a with
  | .store => .inl (updateV vals dest (.str v))
  | .storeChoice cs =>
    if cs.contains v then .inl (updateV vals dest (.str v)) else .inr (.sysexit 2)
  | .storeInt =>
    match pyParseInt v with
    | some n => .inl (updateV vals dest (.int n))
    | Option.none => .inr (.sysexit 2)
  | .append =>
    match lookupV vals dest with
    | some (.list l) => .inl (updateV vals dest (.list (l ++ [v])))
    | some .none => .inl (updateV vals dest (.list [v]))
    | Option.none => .inl (updateV vals dest (.list [v]))
    | some _ => .inr .raised
  | .storeTrue => .inl (updateV vals dest (.bool true))
  | .callback cb _ =>
    match cb with
    | .dumpSettingNames => .inr (.sysexit 0)
    | .parseHumanSize =>
      match _parse_human_size v with
      | some n => .inl (updateV vals dest (.int n))
      | Option.none => .inr .raised

/-- Split a long option at the first `=`
(`arg.split("=", 1)` in `optparse._process_long_opt`). -/
def splitEq (arg : String) : String × Option String :=
  let l := arg.data
  let pre := l.takeWhile (fun c => c ≠ '=')
  match l.dropWhile (fun c => c ≠ '=') with
  | [] => (arg, Option.none)
  | _ :: post => (String.mk pre, some (String.mk post))

/-- Result of processing one short-option cluster: either an abnormal
result, or the new values plus whether the next argument was consumed
as an option value. -/
inductive ShortRes where
  | halt (r : ParseResult)
  | done (vals : Values) (usedNext : Bool)

/-- `optparse._process_short_opts`: the characters of a `-xyz` cluster
are looked up one by one; a value-taking option takes the rest of the
cluster if nonempty, else the next argument. -/
def shortLoop (p : Parser) (vals : Values) (next : Option String) :
    List Char → ShortRes
  | [] => .done vals false
  | c :: cs =>
    match p.get_option (String.mk ['-', c]) with
    | Option.none => .halt (.sysexit 2)
    | some o =>
      if takesValue o.action then
        match (if cs.isEmpty then next else some (String.mk cs)) with
        | Option.none => .halt (.sysexit 2)
        | some v =>
          match doAction vals o.dest o.action v with
          | .inl vals' => .done vals' cs.isEmpty
          | .inr r => .halt r
      else
        match doAction vals o.dest o.action "" with
        | .inl vals' => shortLoop p vals' next cs
        | .inr r => .halt r

/-- The argument-processing loop of `OptionParser.parse_args`
(interspersed positional arguments, `--` terminator, long options with
optional inline `=value`, short-option clusters).  Returns the final
values and positional arguments, or the abnormal result. -/
def processArgs (p : Parser) : Values → List String → List String →
    Sum (Values × List String) ParseResult
  | vals, pos, [] => .inl (vals, pos)
  | vals, pos, arg :: rest =>
    if arg = "--" then .inl (vals, pos ++ rest)
    else if strStartsWith arg "--" then
      let (optStr, inl?) := splitEq arg
      match p.get_option optStr with
      | Option.none => .inr (.sysexit 2)
      | some o =>
        match o.action, inl? with
        | .callback .dumpSettingNames _, _ => .inr (.sysexit 0)
        | .storeTrue, some _ => .inr (.sysexit 2)
        | .storeTrue, Option.none =>
          match doAction vals o.dest o.action "" with
          | .inl vals' => processArgs p vals' pos rest
          | .inr r => .inr r
        | _, some v =>
          match doAction vals o.dest o.action v with
          | .inl vals' => processArgs p vals' pos rest
          | .inr r => .inr r
        | _, Option.none =>
          match rest with
          | [] => .inr (.sysexit 2)
          | v :: rest2 =>
            match doAction vals o.dest o.action v with
            | .inl vals' => processArgs p vals' pos rest2
            | .inr r => .inr r
    else if strStartsWith arg "-" ∧ 1 < arg.data.length then
      match shortLoop p vals rest.head? (arg.data.drop 1) with
      | .halt r => .inr r
      | .done vals' false => processArgs p vals' pos rest
      | .done vals' true =>
        match rest with
        | [] => processArgs p vals' pos []
        | _ :: rest2 => processArgs p vals' pos rest2
    else processArgs p vals (pos ++ [arg]) rest

/-- `OptionParser.get_default_values`' `check_value` pass: every choice
option whose default is a string must have it among its choices,
otherwise `OptionValueError` propagates. -/
def checkDefaults (p : Parser) : Bool :=
  p.optionList.all fun o =>
    match o.action with
    | .storeChoice cs =>
      match lookupV p.defaults o.dest with
      | some (.str s) => cs.contains s
      | _ => true
    | _ => true

/-- After parsing, the list objects mutated by `append` actions are the
same objects stored in the parser defaults, so the parser defaults now
hold the appended lists. -/
def writebackAppends (p : Parser) (vals : Values) : Parser :=
  { p with
    defaults := p.optionList.foldl (fun d o =>
      match o.action with
      | .append =>
        match lookupV vals o.dest with
        | some v => updateV d o.dest v
        | Option.none => d
      | _ => d) p.defaults }

/-- `Application.parse_args` (app.py:330-339): run the option parser
over the arguments, store the resulting values as `self.options` and
return the positional arguments. -/
def Application.parse_args (a : App) (args : List String) : ParseResult :=
  if checkDefaults a.parser then
    match processArgs a.parser a.parser.defaults [] args with
    | .inl (vals, pos) =>
      .ok { parser := writebackAppends a.parser vals, options := some vals } pos
    | .inr r => r
  else .raised

/-- The value a setting has after a successful parse of the given
arguments (a convenience accessor for concrete statements). -/
def parsedValue (a : App) (args : List String) (name : String) : Option PyVal :=
  match Application.parse_args a args with
  | .ok a' _ => Application.get_setting a' name
  | _ => Option.none

/-- A fresh application with the choice setting
`choice(['foo'], ['foo', 'bar'], 'foo help')` of the source tests. -/
def choiceFooBar : App :=
  Application.add_choice_setting Application.init ["foo"] ["foo", "bar"] "foo help"
    Option.none

/-- The options a fresh application registers, as a literal list. -/
def builtinOpts : List Opt :=
  [⟨["--output"], "output", .store⟩, ⟨["--log"], "log", .store⟩,
   ⟨["--log-level"], "log_level", .store⟩,
   ⟨["--dump-setting-names"], "dump_setting_names", .callback .dumpSettingNames 0⟩]

/-- A fresh application with the string-list setting `foo` and the
given declared default. -/
def fooListApp (d : Option (List String)) : App :=
  Application.add_string_list_setting Application.init ["foo"] "foo help" d

/-! ### Claim 3: general registration machinery -/

/-- One consumer-side setting registration, one constructor per factory
of app.py (string, string-list, choice, boolean, bytesize, integer). -/
inductive Reg where
  | rstring (name help default : String)
  | rstringList (name help : String) (default : Option (List String))
  | rchoice (name : String) (possibilities : List String) (help : String)
      (default : Option String)
  | rbool (name help : String) (default : Bool)
  | rbytes (name help : String) (default : ℤ)
  | rint (name help : String) (default : Option ℤ)
deriving DecidableEq

/-- The (single) name a registration declares its setting under. -/
def Reg.name : Reg → String
  | .rstring n _ _ => n
  | .rstringList n _ _ => n
  | .rchoice n _ _ _ => n
  | .rbool n _ _ => n
  | .rbytes n _ _ => n
  | .rint n _ _ => n

/-- The optparse action each factory registers. -/
def Reg.action : Reg → OptAction
  | .rstring _ _ _ => .store
  | .rstringList _ _ _ => .append
  | .rchoice _ ps _ _ => .storeChoice ps
  | .rbool _ _ _ => .storeTrue
  | .rbytes _ _ _ => .callback .parseHumanSize 1
  | .rint _ _ _ => .storeInt

/-- Perform one registration on an application state, dispatching to
the corresponding factory of app.py. -/
def applyReg (a : App) : Reg → App
  | .rstring n h d => Application.add_string_setting a [n] h d
  | .rstringList n h d => Application.add_string_list_setting a [n] h d
  | .rchoice n ps h d => Application.add_choice_setting a [n] ps h d
  | .rbool n h d => Application.add_boolean_setting a [n] h d
  | .rbytes n h d => Application.add_bytesize_setting a [n] h d
  | .rint n h d => Application.add_integer_setting a [n] h d

/-- The default value the specification says a registration declares
(spec side of the refinement: compared against what the code stores). -/
def declaredDefault : Reg → PyVal
  | .rstring _ _ d => .str d
  | .rstringList _ _ d => .list (d.getD [])
  | .rchoice _ ps _ _ => .str (ps.headD "")
  | .rbool _ _ d => .bool d
  | .rbytes _ _ d => .int d
  | .rint _ _ d => d.elim .none .int

/-- The registered option a registration gives rise to. -/
def regOpt (r : Reg) : Opt :=
  ⟨["--" ++ r.name], _attr_name r.name, r.action⟩

/-- A well-formed registration: a multi-character name, and a choice
setting has a nonempty possibility list. -/
def regOk (r : Reg) : Bool :=
  decide (1 < (Reg.name r).data.length) &&
    (match r with
     | .rchoice _ ps _ _ => !ps.isEmpty
     | _ => true)

set_option maxRecDepth 100000

/-! ### Lemmas: value mappings -/

theorem lookupV_updateV_self (m : Values) (k : String) (v : PyVal) :
    lookupV (updateV m k v) k = some v := by
  induction m with
  | nil => simp [updateV, lookupV]
  | cons kv rest ih =>
    by_cases h : kv.1 = k <;> simp [updateV, lookupV, h, ih]

theorem lookupV_updateV_ne (m : Values) (k k' : String) (v : PyVal) (h : k ≠ k') :
    lookupV (updateV m k v) k' = lookupV m k' := by
  induction m with
  | nil => simp [updateV, lookupV, h]
  | cons kv rest ih =>
    by_cases h1 : kv.1 = k <;> by_cases h2 : kv.1 = k' <;>
      simp_all [updateV, lookupV]

/-! ### Claim theorems -/

/-- C7.  `_run` maps outcomes to exit codes exactly as specified: a
requested `SystemExit` code is passed to `sys.exit` unchanged, a
`KeyboardInterrupt` exits with 255, and any other exception exits
with 1 after writing the exception's message plus a newline to the
given `stderr` stream (and nothing is written in the first two
cases). -/
theorem claim7_run_exit_codes (c : Option ℤ) (m : String) :
    _run (.sysExit c) = ⟨some c, []⟩ ∧
    _run .interrupt = ⟨some (some 255), []⟩ ∧
    _run (.failure m) = ⟨some (some 1), [m ++ "\n"]⟩ :=
  ⟨rfl, rfl, rfl⟩

/-- C2.  A choice setting's registered default is always the first
element of the choices list, and the application state produced by
`add_choice_setting` does not depend on the `default` argument at
all. -/
theorem claim2_choice_default_is_first (a : App) (n : String) (ns : List String)
    (p : String) (ps : List String) (help : String) (d d' : Option String) :
    lookupV (Application.add_choice_setting a (n :: ns) (p :: ps) help d).parser.defaults
      (_attr_name n) = some (.str p) ∧
    Application.add_choice_setting a (n :: ns) (p :: ps) help d =
      Application.add_choice_setting a (n :: ns) (p :: ps) help d' := by
  constructor
  · simp [Application.add_choice_setting, Application._set_default_value,
      Parser.set_default, lookupV_updateV_self]
  · rfl

/-- C3, counterexample.  On a fresh application with a string setting
`foo` whose default `bar` has been recorded in the parser defaults,
`get_setting` before any `parse_args` does not return the default: it
raises `AttributeError` (the `options` attribute does not exist yet;
the source docstring warns that `get_setting` may only be called after
parsing). -/
theorem claim3_counterexample :
    lookupV (Application.add_string_setting Application.init ["foo"] "foo help"
      "bar").parser.defaults "foo" = some (.str "bar") ∧
    Application.get_setting
      (Application.add_string_setting Application.init ["foo"] "foo help" "bar") "foo" =
      Option.none := by
  constructor
  · decide
  · decide

/-- C4, counterexample.  For a string-list setting with declared
default `['bar']`, parsing `['--foo=foo', '--foo', 'bar']` yields
`['bar', 'foo', 'bar']` — the default list is mutated in place and the
supplied values are appended to it, not `['foo', 'bar']` as the claim
states. -/
theorem claim4_counterexample :
    parsedValue
      (Application.add_string_list_setting Application.init ["foo"] "foo help"
        (some ["bar"]))
      ["--foo=foo", "--foo", "bar"] "foo" = some (.list ["bar", "foo", "bar"]) ∧
    PyVal.list ["bar", "foo", "bar"] ≠ PyVal.list ["foo", "bar"] := by
  constructor
  · decide
  · decide

/-- C6, counterexample.  `log-level` is not a choice setting: parsing
`--log-level banana` on a fresh application succeeds and stores
`banana`, whereas a choice setting restricted to
debug/info/warning/error/critical/fatal would abort the parse. -/
theorem claim6_counterexample :
    parsedValue Application.init ["--log-level", "banana"] "log-level" =
      some (.str "banana") := by
  decide

/-- C8, counterexample.  The byte-size parser is not total: on the
309-digit string of nines (which the size regex accepts) the value
overflows the IEEE-754 double range, `float` returns `inf`, and
`int(inf)` raises `OverflowError` instead of returning an integer. -/
theorem claim8_counterexample :
    _parse_human_size (String.mk (List.replicate 309 '9')) = Option.none := by
  decide

/-- C9, counterexample.  Prepending whitespace changes the result of
the byte-size parser: `' 123'` does not match the anchored regex and
parses to `0`, while `'123'` parses to `123`. -/
theorem claim9_counterexample :
    _parse_human_size " 123" = some 0 ∧ _parse_human_size "123" = some 123 ∧
    (0 : ℤ) ≠ 123 := by
  refine ⟨by decide, by decide, by decide⟩

/-- C1, counterexample.  `'4.1m'` parses to `4099999`, but
`4.1 × 10⁶ = 4100000` exactly, so the result is not
`floor(number * multiplier)`: the double rounding of `float('4.1')`
loses one unit. -/
theorem claim1_counterexample :
    _parse_human_size "4.1m" = some 4099999 ∧
    ((41 : ℚ) / 10) * 1000000 = 4100000 ∧ (4099999 : ℤ) ≠ 4100000 := by
  refine ⟨by decide, by norm_num, by decide⟩

/-! ### Lemmas: the fresh application and concrete parses -/

/-- The fresh application state, computed. -/
theorem init_eq : Application.init =
    ⟨⟨[⟨["--output"], "output", .store⟩, ⟨["--log"], "log", .store⟩,
       ⟨["--log-level"], "log_level", .store⟩,
       ⟨["--dump-setting-names"], "dump_setting_names", .callback .dumpSettingNames 0⟩],
      [("output", .str ""), ("log", .str ""), ("log_level", .str "info"),
       ("dump_setting_names", .none)]⟩, Option.none⟩ := by
  decide


/-- C5.  For the declared choice setting `foo` with choices
`['foo', 'bar']`: parsing `--foo v` with `v` in the choice set
succeeds and stores `v`; with `v` outside the choice set the whole
parse terminates abnormally with `sys.exit(2)`, a non-zero status. -/
theorem claim5_choice_validation (v : String) :
    (v ∈ ["foo", "bar"] → parsedValue choiceFooBar ["--foo", v] "foo" = some (.str v)) ∧
    (v ∉ ["foo", "bar"] →
      Application.parse_args choiceFooBar ["--foo", v] = .sysexit 2 ∧ (2 : ℤ) ≠ 0) := by
  constructor
  · intro hv
    rcases List.mem_cons.1 hv with h | h
    · subst h; decide
    · rcases List.mem_cons.1 h with h | h
      · subst h; decide
      · simp at h
  · intro hv
    simp only [List.mem_cons, List.not_mem_nil, or_false, not_or] at hv
    obtain ⟨h1, h2⟩ := hv
    refine ⟨?_, by decide⟩
    have hc : checkDefaults choiceFooBar.parser = true := by decide
    simp only [Application.parse_args, hc, if_true]
    simp [processArgs, splitEq, Parser.get_option, List.find?, strStartsWith,
      doAction, List.contains_cons, h1, h2, Ne.symm h1, Ne.symm h2]

/-- C5 witness: `--foo bar` is accepted and stored, `--foo xyzzy`
exits with status 2. -/
theorem claim5_witness :
    parsedValue choiceFooBar ["--foo", "bar"] "foo" = some (.str "bar") ∧
    Application.parse_args choiceFooBar ["--foo", "xyzzy"] = .sysexit 2 :=
  ⟨(claim5_choice_validation "bar").1 (by decide),
   ((claim5_choice_validation "xyzzy").2 (by decide)).1⟩

/-- C6, amended.  A fresh application always carries the settings
`output`, `log` and `log-level` without any registration by the
consumer; all three are plain string settings (`output` and `log`
defaulting to the empty string, `log-level` defaulting to `'info'`).
`log-level` is not restricted to a choice set: parsing
`--log-level v` succeeds for every string `v` and stores `v`. -/
theorem claim6_builtin_settings :
    Application.init.parser.get_option "--output" =
      some ⟨["--output"], "output", .store⟩ ∧
    Application.init.parser.get_option "--log" = some ⟨["--log"], "log", .store⟩ ∧
    Application.init.parser.get_option "--log-level" =
      some ⟨["--log-level"], "log_level", .store⟩ ∧
    lookupV Application.init.parser.defaults "output" = some (.str "") ∧
    lookupV Application.init.parser.defaults "log" = some (.str "") ∧
    lookupV Application.init.parser.defaults "log_level" = some (.str "info") ∧
    ∀ v : String,
      parsedValue Application.init ["--log-level", v] "log-level" = some (.str v) := by
  refine ⟨by decide, by decide, by decide, by decide, by decide, by decide, ?_⟩
  intro v
  rw [init_eq]
  have h9 : _option_names ["log-level"] = ["--log-level"] := by decide
  simp [parsedValue, Application.parse_args, checkDefaults, processArgs, splitEq,
    Parser.get_option, List.find?, strStartsWith, doAction, Application.get_setting,
    h9, lookupV_updateV_self, writebackAppends, updateV, lookupV]

/-! ### String-list settings -/



/-- `fooListApp`, computed: the `foo` option with `append` action and
the declared default (`None` and `[]` both give `[]`) in the
defaults. -/
theorem fooListApp_eq (d : Option (List String)) : fooListApp d =
    ⟨⟨builtinOpts ++ [⟨["--foo"], "foo", .append⟩],
      [("output", .str ""), ("log", .str ""), ("log_level", .str "info"),
       ("dump_setting_names", .none), ("foo", .list (d.getD []))]⟩, Option.none⟩ := by
  rw [fooListApp, init_eq]
  cases d with
  | none => decide
  | some l =>
    simp [Application.add_string_list_setting, Parser.add_option, _option_names,
      Application._set_default_value, Parser.set_default, destOf, strStartsWith, strDrop,
      _attr_name, updateV, lookupV, List.find?, builtinOpts]
    decide

/-- Each `--foo v` occurrence appends `v` to the list currently stored
under `foo`; over a run of occurrences the stored list grows by the
supplied values in order. -/
theorem processFooList (dfts : Values) (vs : List String) :
    ∀ (vals : Values) (pos : List String) (L : List String),
      lookupV vals "foo" = some (.list L) →
      ∃ vals',
        processArgs ⟨builtinOpts ++ [⟨["--foo"], "foo", .append⟩], dfts⟩ vals pos
          (vs.flatMap fun v => ["--foo", v]) = .inl (vals', pos) ∧
        lookupV vals' "foo" = some (.list (L ++ vs)) := by
  induction vs with
  | nil =>
    intro vals pos L hL
    exact ⟨vals, by simp [processArgs], by simpa using hL⟩
  | cons v vs ih =>
    intro vals pos L hL
    have hgo : Parser.get_option ⟨builtinOpts ++ [⟨["--foo"], "foo", .append⟩], dfts⟩ "--foo"
        = some ⟨["--foo"], "foo", .append⟩ := rfl
    simp only [List.flatMap_cons, List.cons_append, List.append_assoc]
    simp only [processArgs, splitEq, hgo]
    norm_num [strStartsWith, doAction, hL]
    have := ih (updateV vals "foo" (.list (L ++ [v]))) pos (L ++ [v])
      (lookupV_updateV_self _ _ _)
    simpa using this

/-- C4, amended.  For the string-list setting `foo` with declared
default `d` (an omitted or `None` default meaning `[]`): parsing a
sequence of `--foo v` occurrences yields the declared default with the
supplied values appended, in order of occurrence — the default list is
mutated in place and is *not* replaced.  With no occurrences (`vs =
[]`) the value is exactly the declared default. -/
theorem claim4_stringlist (d : Option (List String)) (vs : List String) :
    parsedValue (fooListApp d) (vs.flatMap fun v => ["--foo", v]) "foo" =
      some (.list (d.getD [] ++ vs)) := by
  have happ := fooListApp_eq d
  have hlook : lookupV (fooListApp d).parser.defaults "foo" = some (.list (d.getD [])) := by
    rw [happ]; simp [lookupV]
  have hcd : checkDefaults (fooListApp d).parser = true := by
    rw [happ]; rfl
  obtain ⟨vals', h1, h2⟩ :=
    processFooList (fooListApp d).parser.defaults vs (fooListApp d).parser.defaults []
      (d.getD []) hlook
  rw [parsedValue, Application.parse_args, hcd, if_pos rfl]
  simp only [happ] at h1 ⊢
  rw [h1]
  simp only [Application.get_setting, Parser.get_option, writebackAppends]
  simpa using h2

/-! ### The profiling environment variable -/

/-- `Char.ofNat` round-trips on valid code points below the surrogate
range; every code `_envname` emits is ASCII, so far below it. -/
theorem char_toNat_ofNat (n : ℕ) (h : n < 55296) : (Char.ofNat n).toNat = n := by
  have hv : n.isValidChar := Or.inl h
  simp only [Char.ofNat, hv, dite_true, Char.toNat, Char.ofNatAux]
  exact BitVec.toNat_ofNatLt _ _

/-- Every code `envnameC` produces is an uppercase ASCII letter, an
ASCII digit, or an underscore. -/
theorem envnameC_charset (l : List ℕ) (n : ℕ) (hn : n ∈ envnameC l) :
    (65 ≤ n ∧ n ≤ 90) ∨ (48 ≤ n ∧ n ≤ 57) ∨ n = 95 := by
  unfold envnameC at hn
  simp only [List.mem_map] at hn
  obtain ⟨x, _, rfl⟩ := hn
  by_cases hok : isOkChar x = true
  · simp only [hok, if_true]
    unfold isOkChar at hok
    unfold pyUpperC
    simp only [Bool.or_eq_true, Bool.and_eq_true, decide_eq_true_eq] at hok
    rcases hok with (h | h) | h <;> split <;> omega
  · simp [hok]

/-- C10.  The profiling environment variable consulted by `run` is the
`_envname` of the program name followed by `_PROFILE`, and the
`_envname` prefix consists only of uppercase ASCII letters, digits,
and underscores. -/
theorem claim10_envname (s : String) :
    profileEnvVar s = _envname s ++ "_PROFILE" ∧
    ∀ c ∈ (_envname s).data,
      (65 ≤ c.toNat ∧ c.toNat ≤ 90) ∨ (48 ≤ c.toNat ∧ c.toNat ≤ 57) ∨ c.toNat = 95 := by
  refine ⟨rfl, ?_⟩
  intro c hc
  simp only [_envname, List.mem_map] at hc
  obtain ⟨n, hn, rfl⟩ := hc
  have hr := envnameC_charset _ _ hn
  have hlt : n < 55296 := by rcases hr with h | h | h <;> omega
  rw [char_toNat_ofNat n hlt]
  exact hr

/-- C10 witness: for the program name `dir/my-app.py` the prefix is
`MY_APP` and the variable is `MY_APP_PROFILE`; the character `M` of
the prefix is an uppercase letter. -/
theorem claim10_envname_witness :
    _envname "dir/my-app.py" = "MY_APP" ∧
    profileEnvVar "dir/my-app.py" = _envname "dir/my-app.py" ++ "_PROFILE" ∧
    ((65 ≤ 'M'.toNat ∧ 'M'.toNat ≤ 90) ∨ (48 ≤ 'M'.toNat ∧ 'M'.toNat ≤ 57) ∨
      'M'.toNat = 95) :=
  ⟨by decide, (claim10_envname "dir/my-app.py").1,
   (claim10_envname "dir/my-app.py").2 'M' (by decide)⟩

/-! ### Lemmas: the size regex under case changes and whitespace -/

theorem isSpaceC_pyLowerC (n : ℕ) : isSpaceC (pyLowerC n) = isSpaceC n := by
  unfold pyLowerC
  split
  · next h => apply Bool.eq_iff_iff.mpr; unfold isSpaceC; simp; omega
  · rfl

theorem isSpaceC_not_digit (n : ℕ) (h : isSpaceC n = true) : isDigitC n = false := by
  unfold isSpaceC at h
  simp only [Bool.or_eq_true, beq_iff_eq] at h
  rcases h with ((((h | h) | h) | h) | h) | h <;> subst h <;> decide

theorem takeWhile_append_nomatch (p : ℕ → Bool) (l w : List ℕ)
    (hw : ∀ x ∈ w, p x = false) : (l ++ w).takeWhile p = l.takeWhile p := by
  induction l with
  | nil =>
    cases w with
    | nil => rfl
    | cons x w' => simp [List.takeWhile_cons, hw x (by simp)]
  | cons c l' ih =>
    simp only [List.cons_append, List.takeWhile_cons]
    cases hp : p c <;> simp [ih]

theorem dropWhile_append_nomatch (p : ℕ → Bool) (l w : List ℕ)
    (hw : ∀ x ∈ w, p x = false) : (l ++ w).dropWhile p = l.dropWhile p ++ w := by
  induction l with
  | nil =>
    cases w with
    | nil => rfl
    | cons x w' => simp [List.dropWhile_cons, hw x (by simp)]
  | cons c l' ih =>
    simp only [List.cons_append, List.dropWhile_cons]
    cases hp : p c <;> simp [ih]

/-- Appending trailing whitespace to the input shifts through the
number match unchanged. -/
theorem matchNumber_append_ws (l w : List ℕ) (hw : w.all isSpaceC = true) :
    matchNumber (l ++ w) = (matchNumber l).map (fun r => (r.1, r.2.1, r.2.2 ++ w)) := by
  have hw' : ∀ x ∈ w, isSpaceC x = true := fun x hx => List.all_eq_true.mp hw x hx
  have hnd : ∀ x ∈ w, isDigitC x = false := fun x hx => isSpaceC_not_digit x (hw' x hx)
  unfold matchNumber
  rw [takeWhile_append_nomatch _ _ _ hnd, dropWhile_append_nomatch _ _ _ hnd]
  by_cases hds : (l.takeWhile isDigitC).isEmpty
  · simp [hds]
  · simp only [hds, if_false, Bool.false_eq_true]
    cases hr1 : l.dropWhile isDigitC with
    | nil =>
      simp only [List.nil_append]
      cases w with
      | nil => rfl
      | cons x w' =>
        have hx : ¬(x = 46) := fun hx46 => by
          have := hw' x (by simp)
          rw [hx46] at this
          exact absurd this (by decide)
        simp [hx]
    | cons c r2 =>
      simp only [List.cons_append]
      by_cases hc : c = 46
      · subst hc
        simp only [if_pos rfl]
        rw [takeWhile_append_nomatch _ _ _ hnd]
        by_cases hfs : (r2.takeWhile isDigitC).isEmpty
        · simp [hfs]
        · simp [hfs, dropWhile_append_nomatch _ _ _ hnd]
      · simp [hc]

theorem all_append_ws (t w : List ℕ) (hw : w.all isSpaceC = true) :
    (t ++ w).all isSpaceC = t.all isSpaceC := by
  rw [List.all_append, hw, Bool.and_true]

theorem suffixOk_append_ws (t w : List ℕ) (hw : w.all isSpaceC = true) :
    suffixOk (t ++ w) = suffixOk t := by
  cases t with
  | nil =>
    simp only [List.nil_append]
    show suffixOk w = suffixOk []
    cases w with
    | nil => rfl
    | cons x w' =>
      have hx : isSpaceC x = true := List.all_eq_true.mp hw x (by simp)
      have hx98 : ¬(x = 98) := fun h => by rw [h] at hx; exact absurd hx (by decide)
      show suffixOk (x :: w') = true
      simp only [suffixOk, hx98, if_false]
      rw [hx, Bool.true_and]
      rw [List.all_cons] at hw
      exact (Bool.and_eq_true .. |>.mp hw).2
  | cons c t' =>
    simp only [List.cons_append, suffixOk]
    rw [all_append_ws _ _ hw]

theorem isPrefixOf_append_ws (u : List ℕ) (hu : ∀ x ∈ u, isSpaceC x = false)
    (w : List ℕ) (hw : w.all isSpaceC = true) :
    ∀ t : List ℕ, u.isPrefixOf (t ++ w) = u.isPrefixOf t := by
  induction u with
  | nil => intro t; simp [List.isPrefixOf]
  | cons a u' ih =>
    intro t
    cases t with
    | nil =>
      simp only [List.nil_append]
      cases w with
      | nil => rfl
      | cons x w' =>
        have hx : isSpaceC x = true := List.all_eq_true.mp hw x (by simp)
        have ha : isSpaceC a = false := hu a (by simp)
        have hax : (a == x) = false := by
          simp only [beq_eq_false_iff_ne, ne_eq]
          intro h; rw [h] at ha; rw [ha] at hx; exact absurd hx (by decide)
        show (a :: u').isPrefixOf (x :: w') = (a :: u').isPrefixOf []
        simp [List.isPrefixOf, hax]
    | cons c t' =>
      show (a :: u').isPrefixOf (c :: (t' ++ w)) = (a :: u').isPrefixOf (c :: t')
      simp only [List.isPrefixOf]
      by_cases hac : a = c
      · subst hac
        simp only [beq_self_eq_true, Bool.true_and]
        exact ih (fun x hx => hu x (by simp [hx])) t'
      · have hf : (a == c) = false := by simpa [beq_eq_false_iff_ne]
        simp [hf]

theorem find?_congr' {α : Type} (l : List α) (p q : α → Bool)
    (h : ∀ a ∈ l, p a = q a) : l.find? p = l.find? q := by
  induction l with
  | nil => rfl
  | cons a l' ih =>
    rw [List.find?_cons, List.find?_cons, h a (by simp)]
    cases q a with
    | true => rfl
    | false => exact ih (fun a ha => h a (by simp [ha]))

theorem unitCheck_append_ws (u t w : List ℕ) (hu : ∀ x ∈ u, isSpaceC x = false)
    (hw : w.all isSpaceC = true) :
    (u.isPrefixOf (t ++ w) && suffixOk ((t ++ w).drop u.length)) =
      (u.isPrefixOf t && suffixOk (t.drop u.length)) := by
  rw [isPrefixOf_append_ws u hu w hw t]
  by_cases hp : u.isPrefixOf t = true
  · rw [hp, Bool.true_and, Bool.true_and]
    obtain ⟨r, rfl⟩ := List.isPrefixOf_iff_prefix.mp hp
    rw [List.append_assoc, List.drop_left, List.drop_left]
    exact suffixOk_append_ws r w hw
  · rw [Bool.eq_false_iff.mpr hp]
    simp

theorem findUnit_append_ws (t w : List ℕ) (hw : w.all isSpaceC = true) :
    findUnit (t ++ w) = findUnit t := by
  unfold findUnit
  have hcong : ∀ a ∈ unitTable,
      (a.1.isPrefixOf (t ++ w) && suffixOk ((t ++ w).drop a.1.length)) =
      (a.1.isPrefixOf t && suffixOk (t.drop a.1.length)) := by
    intro a ha
    refine unitCheck_append_ws a.1 t w ?_ hw
    simp only [unitTable, List.mem_cons, List.not_mem_nil, or_false] at ha
    rcases ha with rfl | rfl | rfl | rfl | rfl | rfl | rfl | rfl <;> decide
  rw [find?_congr' unitTable _ _ hcong, suffixOk_append_ws t w hw]

theorem dropWhile_ws_append (rest w : List ℕ) (hw : w.all isSpaceC = true) :
    findUnit ((rest ++ w).dropWhile isSpaceC) = findUnit (rest.dropWhile isSpaceC) := by
  induction rest with
  | nil =>
    simp only [List.nil_append, List.dropWhile_nil]
    rw [List.dropWhile_eq_nil_iff.mpr (fun x hx => by
      simpa using List.all_eq_true.mp hw x hx)]
  | cons c rest' ih =>
    simp only [List.cons_append, List.dropWhile_cons]
    cases hc : isSpaceC c
    · simp only [Bool.false_eq_true, if_false]
      exact findUnit_append_ws (c :: rest') w hw
    · simpa using ih

/-- Appending trailing whitespace does not change the overall regex
match. -/
theorem matchSize_append_ws (l w : List ℕ) (hw : w.all isSpaceC = true) :
    matchSize (l ++ w) = matchSize l := by
  unfold matchSize
  rw [matchNumber_append_ws l w hw]
  cases matchNumber l with
  | none => rfl
  | some r =>
    obtain ⟨A, B, rest⟩ := r
    simp only [Option.map_some']
    rw [dropWhile_ws_append rest w hw]

/-- C9, amended.  The byte-size parser is case-insensitive: two inputs
that agree after ASCII lowercasing parse identically (in particular,
changing the case of any letters does not change the result).  It is
also tolerant of appended whitespace: parsing `s ++ w` for whitespace
`w` equals parsing `s`.  (Prepending whitespace is *not* tolerated —
see the counterexample.) -/
theorem claim9_case_and_trailing_ws :
    (∀ s t : String, (strCodes s).map pyLowerC = (strCodes t).map pyLowerC →
      _parse_human_size s = _parse_human_size t) ∧
    (∀ (s w : String), (strCodes w).all isSpaceC = true →
      _parse_human_size (s ++ w) = _parse_human_size s) := by
  constructor
  · intro s t h
    unfold _parse_human_size
    rw [h]
  · intro s w hw
    unfold _parse_human_size
    have hcodes : strCodes (s ++ w) = strCodes s ++ strCodes w := by
      unfold strCodes
      rw [String.data_append, List.map_append]
    rw [hcodes, List.map_append]
    have hwl : ((strCodes w).map pyLowerC).all isSpaceC = true := by
      rw [List.all_map]
      refine List.all_eq_true.mpr fun x hx => ?_
      rw [Function.comp_apply, isSpaceC_pyLowerC]
      exact List.all_eq_true.mp hw x hx
    rw [matchSize_append_ws _ _ hwl]

/-- C9 witness: `123KiB` parses like `123kib`, and `123` followed by a
space and a tab parses like `123`. -/
theorem claim9_case_and_trailing_ws_witness :
    _parse_human_size "123KiB" = _parse_human_size "123kib" ∧
    _parse_human_size ("123" ++ " \t") = _parse_human_size "123" :=
  ⟨claim9_case_and_trailing_ws.1 "123KiB" "123kib" (by decide),
   claim9_case_and_trailing_ws.2 "123" " \t" (by decide)⟩

theorem lgAux_spec (fuel : ℕ) : ∀ n : ℕ, 1 ≤ n → n ≤ fuel →
    2 ^ lgAux fuel n ≤ n ∧ n < 2 ^ (lgAux fuel n + 1) := by
  induction fuel with
  | zero => intro n h1 h2; omega
  | succ fuel ih =>
    intro n h1 h2
    rw [lgAux]
    by_cases hn : n ≤ 1
    · have h1' : n = 1 := by omega
      subst h1'
      simp
    · rw [if_neg hn]
      obtain ⟨ha, hb⟩ := ih (n / 2) (by omega) (by omega)
      have hs1 : (2:ℕ) ^ (lgAux fuel (n / 2) + 1) = 2 ^ lgAux fuel (n / 2) * 2 :=
        pow_succ 2 _
      have hs2 : (2:ℕ) ^ (lgAux fuel (n / 2) + 1 + 1) = 2 ^ (lgAux fuel (n / 2) + 1) * 2 :=
        pow_succ 2 _
      omega

theorem lg_spec (n : ℕ) (h : 1 ≤ n) : 2 ^ lg n ≤ n ∧ n < 2 ^ (lg n + 1) :=
  lgAux_spec n n h le_rfl

theorem ge2pow_true_iff (A B : ℕ) (e : ℤ) :
    ge2pow A B e = true ↔ B * 2 ^ e.toNat ≤ A * 2 ^ (-e).toNat := by
  unfold ge2pow
  exact decide_eq_true_iff

theorem flog2_exact (B N : ℕ) (hB : 0 < B) (hN : 0 < N) :
    flog2 (B * N) B = (lg N : ℤ) := by
  obtain ⟨hb1, hb2⟩ := lg_spec B hB
  obtain ⟨hn1, hn2⟩ := lg_spec N hN
  have hbn : 0 < B * N := Nat.mul_pos hB hN
  obtain ⟨ha1, ha2⟩ := lg_spec (B * N) hbn
  have hlow : lg B + lg N ≤ lg (B * N) := by
    have h1 : 2 ^ (lg B + lg N) ≤ B * N := by
      rw [pow_add]; exact Nat.mul_le_mul hb1 hn1
    have h2 := lt_of_le_of_lt h1 ha2
    have := (Nat.pow_lt_pow_iff_right (by norm_num : 1 < 2)).mp h2
    omega
  have hhigh : lg (B * N) ≤ lg B + lg N + 1 := by
    have h1 : B * N < 2 ^ (lg B + lg N + 2) := by
      have := Nat.mul_lt_mul_of_lt_of_lt hb2 hn2
      calc B * N < 2 ^ (lg B + 1) * 2 ^ (lg N + 1) := this
        _ = 2 ^ (lg B + lg N + 2) := by rw [← pow_add]; ring_nf
    have h2 := lt_of_le_of_lt ha1 h1
    have := (Nat.pow_lt_pow_iff_right (by norm_num : 1 < 2)).mp h2
    omega
  simp only [flog2]
  rcases Nat.eq_or_lt_of_le hlow with heq | hlt
  · have he0 : (lg (B * N) : ℤ) - (lg B : ℤ) = (lg N : ℤ) := by omega
    rw [he0]
    have hcond : ge2pow (B * N) B (lg N : ℤ) = true := by
      rw [ge2pow_true_iff]
      have h1 : ((lg N : ℤ)).toNat = lg N := by omega
      have h2 : (-(lg N : ℤ)).toNat = 0 := by omega
      rw [h1, h2, pow_zero, Nat.mul_one]
      exact Nat.mul_le_mul_left B hn1
    rw [if_pos hcond]
  · have he0 : (lg (B * N) : ℤ) - (lg B : ℤ) = (lg N : ℤ) + 1 := by omega
    rw [he0]
    have hcond : ¬(ge2pow (B * N) B ((lg N : ℤ) + 1) = true) := by
      rw [ge2pow_true_iff]
      intro hcontra
      have h1 : ((lg N : ℤ) + 1).toNat = lg N + 1 := by omega
      have h2 : (-((lg N : ℤ) + 1)).toNat = 0 := by omega
      rw [h1, h2, pow_zero, Nat.mul_one] at hcontra
      have := Nat.le_of_mul_le_mul_left hcontra hB
      omega
    rw [if_neg hcond]
    omega

theorem rneNat_exact (a b : ℕ) (hb : 0 < b) (hd : b ∣ a) : rneNat a b = a / b := by
  have hr : a % b = 0 := Nat.mod_eq_zero_of_dvd hd
  simp [rneNat, hr, hb]

theorem rneNat_le (a b : ℕ) (hb : 0 < b) : 2 * b * rneNat a b ≤ 2 * a + b := by
  simp only [rneNat]
  have hdm := Nat.div_add_mod a b
  have hmlt : a % b < b := Nat.mod_lt a hb
  split
  · next h => nlinarith [Nat.div_mul_le_self a b]
  · split
    · next h1 h2 => nlinarith [hdm]
    · split <;> nlinarith [hdm]

theorem roundDouble_exact (B N : ℕ) (hB : 0 < B) (hN : 0 < N) (h53 : N < 2 ^ 53) :
    ∃ p : ℕ, p ≤ 52 ∧ roundDouble (B * N) B = some (N * 2 ^ p, -(p : ℤ)) := by
  obtain ⟨hn1, hn2⟩ := lg_spec N hN
  have hlg53 : lg N ≤ 52 := by
    have h2 := lt_of_le_of_lt hn1 h53
    have := (Nat.pow_lt_pow_iff_right (by norm_num : 1 < 2)).mp h2
    omega
  refine ⟨52 - lg N, by omega, ?_⟩
  have hA0 : ¬(B * N = 0) := by positivity
  simp only [roundDouble, flog2_exact B N hB hN, hA0, if_false]
  have hmax : max ((lg N : ℤ)) (-1022) = (lg N : ℤ) := by omega
  rw [hmax]
  have hprec : (0 : ℤ) ≤ 52 - (lg N : ℤ) := by omega
  rw [if_pos hprec]
  have htn : ((52 : ℤ) - (lg N : ℤ)).toNat = 52 - lg N := by omega
  rw [htn]
  have hdvd : B ∣ B * N * 2 ^ (52 - lg N) := ⟨N * 2 ^ (52 - lg N), by ring⟩
  rw [rneNat_exact _ _ hB hdvd]
  have hquot : B * N * 2 ^ (52 - lg N) / B = N * 2 ^ (52 - lg N) := by
    rw [Nat.mul_assoc, Nat.mul_div_cancel_left _ hB]
  rw [hquot]
  have hmlt : N * 2 ^ (52 - lg N) < 2 ^ 53 := by
    calc N * 2 ^ (52 - lg N) < 2 ^ (lg N + 1) * 2 ^ (52 - lg N) := by
          exact Nat.mul_lt_mul_of_lt_of_le hn2 le_rfl (by positivity)
      _ = 2 ^ 53 := by rw [← pow_add]; congr 1; omega
  have hthresh : ((1076 : ℤ) - (lg N : ℤ)).toNat = 1076 - lg N := by omega
  rw [hthresh]
  have hcheck : ¬(2 ^ (1076 - lg N) ≤ N * 2 ^ (52 - lg N)) := by
    push_neg
    calc N * 2 ^ (52 - lg N) < 2 ^ 53 := hmlt
      _ ≤ 2 ^ (1076 - lg N) := Nat.pow_le_pow_right (by norm_num) (by omega)
  rw [if_neg hcheck]
  congr 1
  ext
  · rfl
  · show (lg N : ℤ) - 52 = -((52 - lg N : ℕ) : ℤ)
    omega

theorem sizeValue_exact (N mult : ℕ) (hm : 0 < mult) (h53 : N * mult < 2 ^ 53) :
    sizeValue N 1 mult = some ((N * mult : ℕ) : ℤ) := by
  by_cases hN : N = 0
  · subst hN
    simp [sizeValue, roundDouble, dyadicToFrac, dyadicFloor]
  · have hN' : 0 < N := Nat.pos_of_ne_zero hN
    have hN53 : N < 2 ^ 53 := by
      calc N = N * 1 := (Nat.mul_one N).symm
        _ ≤ N * mult := Nat.mul_le_mul_left N hm
        _ < 2 ^ 53 := h53
    obtain ⟨p, hp52, hround⟩ := roundDouble_exact 1 N (by norm_num) hN' hN53
    rw [Nat.one_mul] at hround
    have hfrac : dyadicToFrac (N * 2 ^ p * mult) (-(p : ℤ)) =
        (N * mult * 2 ^ p, 2 ^ p) := by
      unfold dyadicToFrac
      by_cases hp : p = 0
      · subst hp
        simp [Prod.ext_iff]
      · rw [if_neg (by omega)]
        have h2 : ((-(-(p : ℤ))).toNat) = p := by omega
        rw [h2, Prod.mk.injEq]
        exact ⟨by ring, rfl⟩
    obtain ⟨p2, hp2, hr2⟩ := roundDouble_exact (2 ^ p) (N * mult) (by positivity)
      (Nat.mul_pos hN' hm) h53
    have hfloor : dyadicFloor (N * mult * 2 ^ p2) (-(p2 : ℤ)) = N * mult := by
      unfold dyadicFloor
      by_cases hq : p2 = 0
      · subst hq; simp
      · rw [if_neg (by omega)]
        have h3 : ((-(-(p2 : ℤ))).toNat) = p2 := by omega
        rw [h3, Nat.mul_div_cancel _ (by positivity)]
    have hcomm : N * mult * 2 ^ p = 2 ^ p * (N * mult) := by ring
    unfold sizeValue
    rw [hround]
    simp only [hfrac, hcomm, hr2, hfloor]

theorem flog2_spec (A B : ℕ) (hA : 0 < A) (hB : 0 < B) :
    B * 2 ^ (flog2 A B).toNat ≤ A * 2 ^ (-(flog2 A B)).toNat ∧
    A * 2 ^ (-(flog2 A B + 1)).toNat < B * 2 ^ (flog2 A B + 1).toNat := by
  obtain ⟨ha1, ha2⟩ := lg_spec A hA
  obtain ⟨hb1, hb2⟩ := lg_spec B hB
  simp only [flog2]
  cases hge : ge2pow A B ((lg A : ℤ) - (lg B : ℤ)) with
  | true =>
    rw [if_pos rfl]
    refine ⟨(ge2pow_true_iff A B _).mp hge, ?_⟩
    by_cases hcase : lg B ≤ lg A + 1
    · have h1 : ((lg A : ℤ) - (lg B : ℤ) + 1).toNat = lg A + 1 - lg B := by omega
      have h2 : (-((lg A : ℤ) - (lg B : ℤ) + 1)).toNat = 0 := by omega
      rw [h1, h2, pow_zero, Nat.mul_one]
      calc A < 2 ^ (lg A + 1) := ha2
        _ = 2 ^ lg B * 2 ^ (lg A + 1 - lg B) := by rw [← pow_add]; congr 1; omega
        _ ≤ B * 2 ^ (lg A + 1 - lg B) := Nat.mul_le_mul_right _ hb1
    · have h1 : ((lg A : ℤ) - (lg B : ℤ) + 1).toNat = 0 := by omega
      have h2 : (-((lg A : ℤ) - (lg B : ℤ) + 1)).toNat = lg B - lg A - 1 := by omega
      rw [h1, h2, pow_zero, Nat.mul_one]
      calc A * 2 ^ (lg B - lg A - 1) < 2 ^ (lg A + 1) * 2 ^ (lg B - lg A - 1) :=
            Nat.mul_lt_mul_of_lt_of_le ha2 le_rfl (by positivity)
        _ = 2 ^ lg B := by rw [← pow_add]; congr 1; omega
        _ ≤ B := hb1
  | false =>
    rw [if_neg (by decide)]
    have hlt : A * 2 ^ (-((lg A : ℤ) - (lg B : ℤ))).toNat <
        B * 2 ^ ((lg A : ℤ) - (lg B : ℤ)).toNat := by
      have h := (ge2pow_true_iff A B ((lg A : ℤ) - (lg B : ℤ))).not.mp (by simp [hge])
      omega
    constructor
    · by_cases hcase : lg B + 1 ≤ lg A
      · have h1 : ((lg A : ℤ) - (lg B : ℤ) - 1).toNat = lg A - lg B - 1 := by omega
        have h2 : (-((lg A : ℤ) - (lg B : ℤ) - 1)).toNat = 0 := by omega
        rw [h1, h2, pow_zero, Nat.mul_one]
        refine le_of_lt ?_
        calc B * 2 ^ (lg A - lg B - 1) < 2 ^ (lg B + 1) * 2 ^ (lg A - lg B - 1) :=
              Nat.mul_lt_mul_of_lt_of_le hb2 le_rfl (by positivity)
          _ = 2 ^ lg A := by rw [← pow_add]; congr 1; omega
          _ ≤ A := ha1
      · have h1 : ((lg A : ℤ) - (lg B : ℤ) - 1).toNat = 0 := by omega
        have h2 : (-((lg A : ℤ) - (lg B : ℤ) - 1)).toNat = lg B + 1 - lg A := by omega
        rw [h1, h2, pow_zero, Nat.mul_one]
        refine le_of_lt ?_
        calc B < 2 ^ (lg B + 1) := hb2
          _ = 2 ^ lg A * 2 ^ (lg B + 1 - lg A) := by rw [← pow_add]; congr 1; omega
          _ ≤ A * 2 ^ (lg B + 1 - lg A) := Nat.mul_le_mul_right _ ha1
    · have heq : (lg A : ℤ) - (lg B : ℤ) - 1 + 1 = (lg A : ℤ) - (lg B : ℤ) := by ring
      rw [heq]
      exact hlt

theorem roundDouble_bound (A B : ℕ) (k : ℕ) (hA : 0 < A) (hB : 0 < B)
    (hk1 : 1 ≤ k) (hk : k ≤ 1023) (hbound : A < B * 2 ^ k) :
    ∃ m : ℕ, ∃ e' : ℤ, roundDouble A B = some (m, e') ∧ m ≤ 2 ^ 53 ∧
      e' + 53 ≤ (k : ℤ) ∧ -1074 ≤ e' := by
  obtain ⟨hlow, hup⟩ := flog2_spec A B hA hB
  set e := flog2 A B with he
  -- e + 1 ≤ k
  have hek : e + 1 ≤ (k : ℤ) := by
    by_contra hcon
    push_neg at hcon
    have hetn : (k : ℤ) ≤ e := by omega
    have h1 : e.toNat ≥ k := by omega
    have h2 : (-e).toNat = 0 := by omega
    rw [h2, pow_zero, Nat.mul_one] at hlow
    have h3 : B * 2 ^ k ≤ B * 2 ^ e.toNat :=
      Nat.mul_le_mul_left B (Nat.pow_le_pow_right (by norm_num) h1)
    omega
  set ec : ℤ := max e (-1022) with hec
  have hec1 : -1022 ≤ ec := le_max_right _ _
  have hec2 : ec + 1 ≤ (k : ℤ) := by
    have : (1 : ℤ) ≤ k := by exact_mod_cast hk1
    omega
  -- q < 2^(ec+1) : A * 2^(-(ec+1)).toNat < B * 2^(ec+1).toNat
  have hq : A * 2 ^ (-(ec + 1)).toNat < B * 2 ^ (ec + 1).toNat := by
    have hmono1 : (2:ℕ) ^ (-(ec + 1)).toNat ≤ 2 ^ (-(e + 1)).toNat :=
      Nat.pow_le_pow_right (by norm_num) (by omega)
    have hmono2 : (2:ℕ) ^ (e + 1).toNat ≤ 2 ^ (ec + 1).toNat :=
      Nat.pow_le_pow_right (by norm_num) (by omega)
    calc A * 2 ^ (-(ec + 1)).toNat ≤ A * 2 ^ (-(e + 1)).toNat :=
          Nat.mul_le_mul_left A hmono1
      _ < B * 2 ^ (e + 1).toNat := hup
      _ ≤ B * 2 ^ (ec + 1).toNat := Nat.mul_le_mul_left B hmono2
  -- the mantissa fraction a'/b' satisfies a' < b' * 2^53
  have hmain : ∀ a' b' : ℕ, 0 < b' → a' < b' * 2 ^ 53 →
      2 * b' * rneNat a' b' ≤ 2 * a' + b' → rneNat a' b' ≤ 2 ^ 53 := by
    intro a' b' hb' hab hle
    nlinarith
  simp only [roundDouble]
  rw [if_neg (by omega), ← he, ← hec]
  set prec : ℤ := 52 - ec with hprec
  have hm53 : (if 0 ≤ prec then rneNat (A * 2 ^ prec.toNat) B
      else rneNat A (B * 2 ^ (-prec).toNat)) ≤ 2 ^ 53 := by
    by_cases hp : 0 ≤ prec
    · rw [if_pos hp]
      refine hmain _ _ hB ?_ (rneNat_le _ _ hB)
      -- A * 2^prec.toNat < B * 2^53
      by_cases hc : 0 ≤ ec + 1
      · have h1 : (-(ec+1)).toNat = 0 := by omega
        rw [h1, pow_zero, Nat.mul_one] at hq
        calc A * 2 ^ prec.toNat < B * 2 ^ (ec + 1).toNat * 2 ^ prec.toNat :=
              Nat.mul_lt_mul_of_lt_of_le hq le_rfl (by positivity)
          _ = B * 2 ^ ((ec + 1).toNat + prec.toNat) := by rw [Nat.mul_assoc, ← pow_add]
          _ = B * 2 ^ 53 := by rw [show (ec + 1).toNat + prec.toNat = 53 by omega]
      · have h1 : (ec + 1).toNat = 0 := by omega
        rw [h1, pow_zero, Nat.mul_one] at hq
        have h2 : prec.toNat = (-(ec+1)).toNat + 53 := by omega
        rw [h2, pow_add, ← Nat.mul_assoc]
        exact Nat.mul_lt_mul_of_lt_of_le hq le_rfl (by positivity)
    · rw [if_neg hp]
      have hb' : 0 < B * 2 ^ (-prec).toNat := by positivity
      refine hmain _ _ hb' ?_ (rneNat_le _ _ hb')
      -- A < B * 2^(-prec).toNat * 2^53
      have hc : 0 ≤ ec + 1 := by omega
      have h1 : (-(ec+1)).toNat = 0 := by omega
      rw [h1, pow_zero, Nat.mul_one] at hq
      have h2 : (ec + 1).toNat = (-prec).toNat + 53 := by omega
      rw [h2, pow_add, ← Nat.mul_assoc] at hq
      exact hq
  have hcheck : ¬(2 ^ (1076 - ec).toNat ≤
      (if 0 ≤ prec then rneNat (A * 2 ^ prec.toNat) B
        else rneNat A (B * 2 ^ (-prec).toNat))) := by
    push_neg
    have h54 : (2:ℕ) ^ 54 ≤ 2 ^ (1076 - ec).toNat :=
      Nat.pow_le_pow_right (by norm_num) (by omega)
    have : (2:ℕ) ^ 53 < 2 ^ 54 := by norm_num
    omega
  rw [if_neg hcheck]
  exact ⟨_, _, rfl, hm53, by omega, by omega⟩

theorem sizeValue_eq_of_round (A B mult : ℕ) (m : ℕ) (e : ℤ)
    (h : roundDouble A B = some (m, e)) :
    sizeValue A B mult =
      match roundDouble (dyadicToFrac (m * mult) e).1 (dyadicToFrac (m * mult) e).2 with
      | none => none
      | some me2 => some ((dyadicFloor me2.1 me2.2 : ℤ)) := by
  unfold sizeValue
  rw [h]

theorem roundDouble_zero (B : ℕ) : roundDouble 0 B = some (0, 0) := by
  simp [roundDouble]

theorem sizeValue_isSome (A B mult k : ℕ) (hB : 0 < B) (hmult : 0 < mult)
    (hm40 : mult ≤ 2 ^ 40) (hk1 : 1 ≤ k) (hk : k ≤ 982) (hbound : A < B * 2 ^ k) :
    (sizeValue A B mult).isSome = true := by
  by_cases hA : A = 0
  · subst hA
    rw [sizeValue_eq_of_round 0 B mult 0 0 (roundDouble_zero B)]
    have hz : (dyadicToFrac (0 * mult) 0).1 = 0 := by
      simp [dyadicToFrac]
    rw [hz, roundDouble_zero]
    rfl
  · obtain ⟨m, e', hr, hm53, hek, hel⟩ :=
      roundDouble_bound A B k (Nat.pos_of_ne_zero hA) hB hk1 (by omega) hbound
    rw [sizeValue_eq_of_round A B mult m e' hr]
    by_cases hm0 : m = 0
    · subst hm0
      have hz : (dyadicToFrac (0 * mult) e').1 = 0 := by
        unfold dyadicToFrac
        split <;> simp
      rw [hz, roundDouble_zero]
      rfl
    · have hm' : 0 < m := Nat.pos_of_ne_zero hm0
      have hf1 : 0 < (dyadicToFrac (m * mult) e').1 := by
        unfold dyadicToFrac
        split
        · exact Nat.mul_pos (Nat.mul_pos hm' hmult) (by positivity)
        · exact Nat.mul_pos hm' hmult
      have hf2 : 0 < (dyadicToFrac (m * mult) e').2 := by
        unfold dyadicToFrac
        split
        · exact Nat.one_pos
        · positivity
      have hfb : (dyadicToFrac (m * mult) e').1 <
          (dyadicToFrac (m * mult) e').2 * 2 ^ (k + 41) := by
        unfold dyadicToFrac
        by_cases hp : 0 ≤ e'
        · rw [if_pos hp]
          show m * mult * 2 ^ e'.toNat < 1 * 2 ^ (k + 41)
          rw [Nat.one_mul]
          have h1 : m * mult ≤ 2 ^ 53 * 2 ^ 40 := Nat.mul_le_mul hm53 hm40
          have h3 : e'.toNat ≤ k - 53 := by omega
          calc m * mult * 2 ^ e'.toNat ≤ 2 ^ 53 * 2 ^ 40 * 2 ^ e'.toNat :=
                Nat.mul_le_mul_right _ h1
            _ = 2 ^ (93 + e'.toNat) := by rw [← pow_add, ← pow_add]
            _ < 2 ^ (k + 41) := Nat.pow_lt_pow_right (by norm_num) (by omega)
        · rw [if_neg hp]
          show m * mult < 2 ^ (-e').toNat * 2 ^ (k + 41)
          have h1 : m * mult ≤ 2 ^ 53 * 2 ^ 40 := Nat.mul_le_mul hm53 hm40
          calc m * mult ≤ 2 ^ 53 * 2 ^ 40 := h1
            _ = 2 ^ 93 := by norm_num
            _ < 2 ^ ((-e').toNat + (k + 41)) := Nat.pow_lt_pow_right (by norm_num) (by omega)
            _ = 2 ^ (-e').toNat * 2 ^ (k + 41) := pow_add 2 _ _
      obtain ⟨m2, e2, hr2, h1, h2, h3⟩ :=
        roundDouble_bound (dyadicToFrac (m * mult) e').1 (dyadicToFrac (m * mult) e').2
          (k + 41) hf1 hf2 (by omega) (by omega) hfb
      rw [hr2]
      rfl

theorem natValue_lt (ds : List ℕ) (h : ∀ d ∈ ds, isDigitC d = true) :
    natValue ds < 10 ^ ds.length := by
  suffices haux : ∀ a, ds.foldl (fun a d => 10 * a + (d - 48)) a < (a + 1) * 10 ^ ds.length by
    have := haux 0
    simpa [natValue] using this
  induction ds with
  | nil => intro a; simp
  | cons d t ih =>
    intro a
    have hd : d - 48 ≤ 9 := by
      have := h d (by simp)
      unfold isDigitC at this
      simp only [Bool.and_eq_true, decide_eq_true_eq] at this
      omega
    simp only [List.foldl_cons, List.length_cons]
    have h1 := ih (fun x hx => h x (by simp [hx])) (10 * a + (d - 48))
    calc t.foldl (fun a d => 10 * a + (d - 48)) (10 * a + (d - 48))
        < (10 * a + (d - 48) + 1) * 10 ^ t.length := h1
      _ ≤ ((a + 1) * 10) * 10 ^ t.length := by
          have : 10 * a + (d - 48) + 1 ≤ (a + 1) * 10 := by omega
          exact Nat.mul_le_mul_right _ this
      _ = (a + 1) * 10 ^ (t.length + 1) := by ring

theorem findUnit_mult_bound (t : List ℕ) (mult : ℕ) (h : findUnit t = some mult) :
    0 < mult ∧ mult ≤ 2 ^ 40 := by
  unfold findUnit at h
  split at h
  next p heq =>
    simp only [Option.some.injEq] at h
    subst h
    have hmem := List.mem_of_find?_eq_some heq
    simp only [unitTable, List.mem_cons, List.not_mem_nil, or_false] at hmem
    rcases hmem with rfl | rfl | rfl | rfl | rfl | rfl | rfl | rfl <;> norm_num
  next heq =>
    split at h
    · simp only [Option.some.injEq] at h
      subst h
      norm_num
    · exact absurd h (by simp)

theorem matchNumber_bounds (l : List ℕ) (r : ℕ × ℕ × List ℕ)
    (h : matchNumber l = some r) : 0 < r.2.1 ∧ r.1 < r.2.1 * 10 ^ l.length := by
  have hdig : ∀ d ∈ l.takeWhile isDigitC, isDigitC d = true :=
    fun d hd => List.mem_takeWhile_imp hd
  have hlen : (l.takeWhile isDigitC).length ≤ l.length :=
    (List.takeWhile_sublist _).length_le
  have hA : natValue (l.takeWhile isDigitC) < 10 ^ l.length :=
    lt_of_lt_of_le (natValue_lt _ hdig)
      (Nat.pow_le_pow_right (by norm_num) hlen)
  unfold matchNumber at h
  by_cases hds : (l.takeWhile isDigitC).isEmpty
  · rw [if_pos hds] at h; cases h
  · rw [if_neg hds] at h
    cases hdw : l.dropWhile isDigitC with
    | nil =>
      rw [hdw] at h
      simp only [] at h
      simp only [Option.some.injEq] at h
      subst h
      simpa using hA
    | cons c r2 =>
      rw [hdw] at h
      simp only [] at h
      by_cases hc : c = 46
      · rw [if_pos hc] at h
        by_cases hfs : (r2.takeWhile isDigitC).isEmpty
        · rw [if_pos hfs] at h
          simp only [Option.some.injEq] at h
          subst h
          simpa using hA
        · rw [if_neg hfs] at h
          simp only [Option.some.injEq] at h
          subst h
          simp only
          refine ⟨by positivity, ?_⟩
          have hfdig : ∀ d ∈ r2.takeWhile isDigitC, isDigitC d = true :=
            fun d hd => List.mem_takeWhile_imp hd
          have hfs' := natValue_lt _ hfdig
          set X := (10:ℕ) ^ (l.takeWhile isDigitC).length with hX
          set Y := (10:ℕ) ^ (r2.takeWhile isDigitC).length with hY
          have h1 : natValue (l.takeWhile isDigitC) < X := natValue_lt _ hdig
          have h2 : X ≤ 10 ^ l.length := Nat.pow_le_pow_right (by norm_num) hlen
          have h3 : natValue (l.takeWhile isDigitC) * Y + natValue (r2.takeWhile isDigitC)
              < X * Y := by nlinarith
          calc natValue (l.takeWhile isDigitC) * Y + natValue (r2.takeWhile isDigitC)
              < X * Y := h3
            _ ≤ 10 ^ l.length * Y := Nat.mul_le_mul_right _ h2
            _ = Y * 10 ^ l.length := Nat.mul_comm _ _
      · rw [if_neg hc] at h
        simp only [Option.some.injEq] at h
        subst h
        simpa using hA

theorem matchSize_bounds (l : List ℕ) (A B mult : ℕ)
    (h : matchSize l = some (A, B, mult)) :
    0 < B ∧ A < B * 10 ^ l.length ∧ 0 < mult ∧ mult ≤ 2 ^ 40 := by
  unfold matchSize at h
  split at h
  · exact absurd h (by simp)
  next r hmn =>
    split at h
    · exact absurd h (by simp)
    next mult' hfu =>
      simp only [Option.some.injEq, Prod.mk.injEq] at h
      obtain ⟨h1, h2, h3⟩ := h
      subst h1
      subst h2
      subst h3
      obtain ⟨hb, ha⟩ := matchNumber_bounds l r hmn
      obtain ⟨hm1, hm2⟩ := findUnit_mult_bound _ _ hfu
      exact ⟨hb, ha, hm1, hm2⟩

theorem claim8_no_raise_bounded (s : String) (h : s.length ≤ 290) :
    (_parse_human_size s).isSome = true := by
  unfold _parse_human_size
  cases hm : matchSize ((strCodes s).map pyLowerC) with
  | none => rfl
  | some r =>
    simp only []
    obtain ⟨A, B, mult⟩ := r
    obtain ⟨hb, ha, hm1, hm2⟩ := matchSize_bounds _ _ _ _ hm
    have hlen : ((strCodes s).map pyLowerC).length = s.length := by
      rw [List.length_map, strCodes, List.length_map, String.length]
    rw [hlen] at ha
    have hbig : A < B * 2 ^ 964 := by
      have h10 : (10:ℕ) ^ s.length ≤ 10 ^ 290 := Nat.pow_le_pow_right (by norm_num) h
      have h2 : (10:ℕ) ^ 290 ≤ 2 ^ 964 := Nat.le_of_lt (by decide)
      calc A < B * 10 ^ s.length := ha
        _ ≤ B * 2 ^ 964 := Nat.mul_le_mul_left B (le_trans h10 h2)
    exact sizeValue_isSome A B mult 964 hb hm1 hm2 (by norm_num) (by norm_num) hbig

/-- Witness for claim8: the concrete input "123k" has length at most 290
and the parser returns a value on it. -/
theorem claim8_no_raise_bounded_witness :
    ("123k".length ≤ 290) ∧ (_parse_human_size "123k").isSome = true :=
  ⟨by decide, claim8_no_raise_bounded "123k" (by decide)⟩

/-- C1: the enumerated example inputs parse exactly as listed, and in
general a matching input whose number part is an integer N with
N * multiplier < 2^53 parses to exactly N * multiplier (the float
arithmetic is exact there, so the result agrees with
floor(number * multiplier)). -/
theorem claim1_bytesize_mapping :
    (_parse_human_size "xyzzy" = some 0 ∧
     _parse_human_size "123" = some 123 ∧
     _parse_human_size "123k" = some 123000 ∧
     _parse_human_size "123m" = some 123000000 ∧
     _parse_human_size "123kib" = some (123 * 1024) ∧
     _parse_human_size "123tib" = some (123 * 1024 ^ 4)) ∧
    ∀ (s : String) (N mult : ℕ),
      matchSize ((strCodes s).map pyLowerC) = some (N, 1, mult) →
      0 < mult → N * mult < 2 ^ 53 →
      _parse_human_size s = some ((N * mult : ℕ) : ℤ) := by
  refine ⟨⟨by decide, by decide, by decide, by decide, by decide, by decide⟩, ?_⟩
  intro s N mult hm hmpos h53
  unfold _parse_human_size
  rw [hm]
  exact sizeValue_exact N mult hmpos h53

/-- Witness for claim1: the input "200k" matches with integer number 200
and multiplier 1000, and parses to exactly 200000. -/
theorem claim1_bytesize_mapping_witness :
    _parse_human_size "200k" = some ((200 * 1000 : ℕ) : ℤ) :=
  claim1_bytesize_mapping.2 "200k" 200 1000 (by decide) (by decide) (by decide)

theorem regOk_len (r : Reg) (h : regOk r = true) : 1 < (Reg.name r).data.length := by
  have := (Bool.and_eq_true _ _).mp h
  exact of_decide_eq_true this.1

theorem regOk_choice (n : String) (ps : List String) (hs : String)
    (d : Option String) (h : regOk (.rchoice n ps hs d) = true) : ps ≠ [] := by
  have := (Bool.and_eq_true _ _).mp h
  have h2 := this.2
  simp only [regOk] at h2
  intro he
  subst he
  simp at h2

theorem dd_data (n : String) : ("--" ++ n).data = '-' :: '-' :: n.data := rfl

theorem dd_inj (x y : String) (h : "--" ++ x = "--" ++ y) : x = y := by
  have hd := congrArg String.data h
  rw [dd_data, dd_data] at hd
  cases x with
  | mk xd =>
    cases y with
    | mk yd =>
      simp only [List.cons.injEq] at hd
      exact congrArg String.mk hd.2.2

theorem strStartsWith_dd (n : String) : strStartsWith ("--" ++ n) "--" = true := by
  show List.isPrefixOf "--".data ("--" ++ n).data = true
  rw [dd_data]
  simp [List.isPrefixOf]

theorem strDrop_dd (n : String) : strDrop ("--" ++ n) 2 = n := by
  show String.mk ((("--" ++ n).data).drop 2) = n
  rw [dd_data]
  rfl

theorem option_names_long (n : String) (h : 1 < n.data.length) :
    _option_names [n] = ["--" ++ n] := by
  show [if 1 < n.data.length then "--" ++ n else "-" ++ n] = ["--" ++ n]
  rw [if_pos h]

theorem destOf_long (n : String) : destOf ["--" ++ n] = _attr_name n := by
  unfold destOf
  have hf : List.find? (fun m => strStartsWith m "--") ["--" ++ n] = some ("--" ++ n) := by
    simp [List.find?, strStartsWith_dd]
  rw [hf]
  simp only []
  rw [strDrop_dd]

theorem applyReg_options (a : App) (r : Reg) : (applyReg a r).options = a.options := by
  cases r <;> rfl

theorem foldl_applyReg_options (regs : List Reg) (a : App) :
    (regs.foldl applyReg a).options = a.options := by
  induction regs generalizing a with
  | nil => rfl
  | cons r tl ih => rw [List.foldl_cons, ih, applyReg_options]

theorem applyReg_parserState (a : App) (r : Reg) (h : 1 < (Reg.name r).data.length) :
    (applyReg a r).parser =
      (a.parser.add_option ["--" ++ Reg.name r] (Reg.action r)).set_default
        (_attr_name (Reg.name r)) (declaredDefault r) := by
  cases r with
  | rstring n hs d =>
    simp only [Reg.name] at h
    simp [applyReg, Application.add_string_setting, Application._set_default_value,
      option_names_long n h, Reg.name, Reg.action, declaredDefault]
  | rstringList n hs d =>
    simp only [Reg.name] at h
    simp [applyReg, Application.add_string_list_setting, Application._set_default_value,
      option_names_long n h, Reg.name, Reg.action, declaredDefault]
  | rchoice n ps hs d =>
    simp only [Reg.name] at h
    simp [applyReg, Application.add_choice_setting, Application._set_default_value,
      option_names_long n h, Reg.name, Reg.action, declaredDefault]
  | rbool n hs d =>
    simp only [Reg.name] at h
    simp [applyReg, Application.add_boolean_setting, Application._set_default_value,
      option_names_long n h, Reg.name, Reg.action, declaredDefault]
  | rbytes n hs d =>
    simp only [Reg.name] at h
    simp [applyReg, Application.add_bytesize_setting, Application.add_callback_setting,
      Application._set_default_value, option_names_long n h, Reg.name, Reg.action,
      declaredDefault]
  | rint n hs d =>
    simp only [Reg.name] at h
    simp [applyReg, Application.add_integer_setting, Application._set_default_value,
      option_names_long n h, Reg.name, Reg.action, declaredDefault]

theorem applyReg_optionList (a : App) (r : Reg) (h : 1 < (Reg.name r).data.length) :
    (applyReg a r).parser.optionList = a.parser.optionList ++ [regOpt r] := by
  rw [applyReg_parserState a r h]
  simp [Parser.set_default, Parser.add_option, regOpt, destOf_long]

theorem foldl_applyReg_optionList (regs : List Reg) (a : App)
    (hok : ∀ r ∈ regs, 1 < (Reg.name r).data.length) :
    (regs.foldl applyReg a).parser.optionList
      = a.parser.optionList ++ regs.map regOpt := by
  induction regs generalizing a with
  | nil => simp
  | cons r tl ih =>
    rw [List.foldl_cons, ih _ (fun r' hr' => hok r' (List.mem_cons_of_mem _ hr')),
      applyReg_optionList a r (hok r (List.mem_cons_self _ _)), List.map_cons]
    simp

theorem applyReg_defaults_self (a : App) (r : Reg) (h : 1 < (Reg.name r).data.length) :
    lookupV (applyReg a r).parser.defaults (_attr_name (Reg.name r))
      = some (declaredDefault r) := by
  rw [applyReg_parserState a r h]
  simp only [Parser.set_default]
  exact lookupV_updateV_self _ _ _

theorem applyReg_defaults_other (a : App) (r : Reg) (k : String)
    (h : 1 < (Reg.name r).data.length) (hk : _attr_name (Reg.name r) ≠ k) :
    lookupV (applyReg a r).parser.defaults k = lookupV a.parser.defaults k := by
  rw [applyReg_parserState a r h]
  simp only [Parser.set_default, Parser.add_option]
  rw [lookupV_updateV_ne _ _ _ _ hk]
  rw [destOf_long]
  split
  · rfl
  · exact lookupV_updateV_ne _ _ _ _ hk

theorem foldl_defaults_frozen (regs : List Reg) (a : App) (k : String)
    (hok : ∀ r ∈ regs, 1 < (Reg.name r).data.length)
    (hk : k ∉ regs.map fun r => _attr_name (Reg.name r)) :
    lookupV (regs.foldl applyReg a).parser.defaults k
      = lookupV a.parser.defaults k := by
  induction regs generalizing a with
  | nil => rfl
  | cons r tl ih =>
    rw [List.map_cons] at hk
    have hk1 : _attr_name (Reg.name r) ≠ k := fun he => hk (by rw [he]; exact List.mem_cons_self _ _)
    have hk2 : k ∉ tl.map fun r => _attr_name (Reg.name r) :=
      fun hm => hk (List.mem_cons_of_mem _ hm)
    rw [List.foldl_cons, ih _ (fun r' hr' => hok r' (List.mem_cons_of_mem _ hr')) hk2,
      applyReg_defaults_other a r k (hok r (List.mem_cons_self _ _)) hk1]

theorem foldl_defaults_lookup (regs : List Reg) (a : App) (r : Reg)
    (hr : r ∈ regs)
    (hok : ∀ r' ∈ regs, 1 < (Reg.name r').data.length)
    (hnodup : (regs.map fun r' => _attr_name (Reg.name r')).Nodup) :
    lookupV (regs.foldl applyReg a).parser.defaults (_attr_name (Reg.name r))
      = some (declaredDefault r) := by
  induction regs generalizing a with
  | nil => cases hr
  | cons r0 tl ih =>
    rw [List.foldl_cons]
    rw [List.map_cons, List.nodup_cons] at hnodup
    rcases List.mem_cons.mp hr with he | hr'
    · subst he
      rw [foldl_defaults_frozen tl _ _
        (fun r' hr' => hok r' (List.mem_cons_of_mem _ hr')) hnodup.1]
      exact applyReg_defaults_self a r (hok r (List.mem_cons_self _ _))
    · exact ih _ hr' (fun r' h' => hok r' (List.mem_cons_of_mem _ h')) hnodup.2

theorem checkDefaults_regs (regs : List Reg)
    (hok : ∀ r ∈ regs, regOk r = true)
    (hnodup : (regs.map fun r => _attr_name (Reg.name r)).Nodup) :
    checkDefaults (regs.foldl applyReg Application.init).parser = true := by
  unfold checkDefaults
  rw [List.all_eq_true]
  intro o ho
  rw [foldl_applyReg_optionList regs _ (fun r h => regOk_len r (hok r h))] at ho
  have hinit : Application.init.parser.optionList = builtinOpts := by decide
  rw [hinit] at ho
  rcases List.mem_append.mp ho with hb | hm
  · simp only [builtinOpts, List.mem_cons, List.not_mem_nil, or_false] at hb
    rcases hb with rfl | rfl | rfl | rfl <;> rfl
  · obtain ⟨r, hr, rfl⟩ := List.mem_map.mp hm
    cases r with
    | rchoice n ps hs d =>
      simp only [regOpt, Reg.action, Reg.name]
      have hl := foldl_defaults_lookup regs Application.init (.rchoice n ps hs d) hr
        (fun r' h' => regOk_len r' (hok r' h')) hnodup
      simp only [Reg.name, declaredDefault] at hl
      simp only [hl]
      have hps : ps ≠ [] := regOk_choice n ps hs d (hok _ hr)
      cases ps with
      | nil => exact absurd rfl hps
      | cons p pt => simp [List.contains_cons]
    | rstring n hs d => rfl
    | rstringList n hs d => rfl
    | rbool n hs d => rfl
    | rbytes n hs d => rfl
    | rint n hs d => rfl

theorem find?_append_left_none {α : Type} (p : α → Bool) (l1 l2 : List α)
    (h : ∀ x ∈ l1, p x = false) :
    (l1 ++ l2).find? p = l2.find? p := by
  induction l1 with
  | nil => rfl
  | cons x xs ih =>
    rw [List.cons_append,
      List.find?_cons_of_neg _ (by simp [h x (List.mem_cons_self _ _)])]
    exact ih (fun y hy => h y (List.mem_cons_of_mem _ hy))

theorem builtin_pred_false (r : Reg)
    (hb : _attr_name (Reg.name r) ∉ ["output", "log", "log_level", "dump_setting_names"]) :
    ∀ o ∈ builtinOpts, (o.optNames.contains ("--" ++ Reg.name r)) = false := by
  intro o ho
  have hmem : ∀ s : String, Reg.name r ≠ s →
      (["--" ++ s] : List String).contains ("--" ++ Reg.name r) = false := by
    intro s hs
    simp only [List.contains_cons, List.contains_nil, Bool.or_false, beq_eq_false_iff_ne]
    intro he
    exact hs (dd_inj _ _ he)
  simp only [builtinOpts, List.mem_cons, List.not_mem_nil, or_false] at ho
  rcases ho with rfl | rfl | rfl | rfl
  · exact hmem "output" (fun he => hb (by rw [he]; decide))
  · exact hmem "log" (fun he => hb (by rw [he]; decide))
  · exact hmem "log-level" (fun he => hb (by rw [he]; decide))
  · exact hmem "dump-setting-names" (fun he => hb (by rw [he]; decide))

theorem find?_cons_pos {α : Type} (p : α → Bool) (a : α) (l : List α) (h : p a = true) :
    (a :: l).find? p = some a := by
  simp [List.find?, h]

theorem find?_cons_neg {α : Type} (p : α → Bool) (a : α) (l : List α) (h : p a = false) :
    (a :: l).find? p = l.find? p := by
  simp [List.find?, h]

theorem find_regOpt (regs : List Reg) (r : Reg) (hr : r ∈ regs) :
    ∃ o, (regs.map regOpt).find?
        (fun o => o.optNames.contains ("--" ++ Reg.name r)) = some o
      ∧ o.dest = _attr_name (Reg.name r) := by
  induction regs with
  | nil => cases hr
  | cons r0 tl ih =>
    rw [List.map_cons]
    by_cases hp : ((regOpt r0).optNames.contains ("--" ++ Reg.name r)) = true
    · refine ⟨regOpt r0, ?_, ?_⟩
      · exact find?_cons_pos (fun o => o.optNames.contains ("--" ++ Reg.name r))
          (regOpt r0) _ hp
      · simp only [regOpt, List.contains_cons, List.contains_nil, Bool.or_false,
          beq_iff_eq] at hp
        have hn : Reg.name r = Reg.name r0 := dd_inj _ _ hp
        simp [regOpt, hn]
    · have hr' : r ∈ tl := by
        rcases List.mem_cons.mp hr with he | h'
        · subst he
          exact absurd (by simp [regOpt, List.contains_cons]) hp
        · exact h'
      obtain ⟨o, ho, hd⟩ := ih hr'
      refine ⟨o, ?_, hd⟩
      rw [find?_cons_neg (fun o => o.optNames.contains ("--" ++ Reg.name r))
        (regOpt r0) _ (Bool.eq_false_iff.mpr hp), ho]

theorem get_option_regs (regs : List Reg) (r : Reg) (hr : r ∈ regs)
    (hok : ∀ r' ∈ regs, 1 < (Reg.name r').data.length)
    (hb : _attr_name (Reg.name r) ∉ ["output", "log", "log_level", "dump_setting_names"]) :
    ∃ o, Parser.get_option (regs.foldl applyReg Application.init).parser
        ("--" ++ Reg.name r) = some o
      ∧ o.dest = _attr_name (Reg.name r) := by
  unfold Parser.get_option
  rw [foldl_applyReg_optionList regs _ hok,
    show Application.init.parser.optionList = builtinOpts from by decide]
  rw [find?_append_left_none _ _ _ (builtin_pred_false r hb)]
  exact find_regOpt regs r hr

/-- C3, amended: with the declared settings modelled as a registration
list, looking a registered setting up before any `parse_args` fails
(`self.options` does not exist yet), while after `parse_args []`
every registered setting resolves to exactly its declared default. -/
theorem claim3_defaults_after_parse (regs : List Reg)
    (hok : ∀ r ∈ regs, regOk r = true)
    (hnodup : (regs.map fun r => _attr_name (Reg.name r)).Nodup)
    (hbuiltin : ∀ r ∈ regs,
      _attr_name (Reg.name r) ∉ ["output", "log", "log_level", "dump_setting_names"]) :
    (∀ r ∈ regs,
      Application.get_setting (regs.foldl applyReg Application.init) (Reg.name r)
        = Option.none) ∧
    ∃ a', Application.parse_args (regs.foldl applyReg Application.init) [] = .ok a' [] ∧
      ∀ r ∈ regs,
        Application.get_setting a' (Reg.name r) = some (declaredDefault r) := by
  have hok' : ∀ r' ∈ regs, 1 < (Reg.name r').data.length :=
    fun r' h' => regOk_len r' (hok r' h')
  constructor
  · intro r hr
    have hopts : (regs.foldl applyReg Application.init).options = Option.none :=
      foldl_applyReg_options regs Application.init
    unfold Application.get_setting
    cases hgo : Parser.get_option (regs.foldl applyReg Application.init).parser
        ((_option_names [Reg.name r]).headD "") with
    | none => rfl
    | some o =>
      simp only []
      rw [hopts]
  · refine ⟨⟨writebackAppends (regs.foldl applyReg Application.init).parser
        (regs.foldl applyReg Application.init).parser.defaults,
        some (regs.foldl applyReg Application.init).parser.defaults⟩, ?_, ?_⟩
    · unfold Application.parse_args
      rw [checkDefaults_regs regs hok hnodup]
      rfl
    · intro r hr
      unfold Application.get_setting
      have hname : (_option_names [Reg.name r]).headD "" = "--" ++ Reg.name r := by
        rw [option_names_long _ (hok' r hr)]
        rfl
      rw [hname]
      obtain ⟨o, hgo, hdest⟩ := get_option_regs regs r hr hok' (hbuiltin r hr)
      have hgo' : Parser.get_option
          (writebackAppends (regs.foldl applyReg Application.init).parser
            (regs.foldl applyReg Application.init).parser.defaults)
          ("--" ++ Reg.name r) = some o := hgo
      rw [hgo']
      simp only []
      rw [hdest]
      exact foldl_defaults_lookup regs Application.init r hr hok' hnodup

/-- Witness for claim3 at a concrete registration list: a string
setting `foo` with default `"bar"` and a choice setting `colour` with
possibilities `["red", "blue"]`. -/
theorem claim3_defaults_after_parse_witness :
    (∀ r ∈ ([Reg.rstring "foo" "foo help" "bar",
             Reg.rchoice "colour" ["red", "blue"] "colour help" Option.none] : List Reg),
      Application.get_setting
        (([Reg.rstring "foo" "foo help" "bar",
           Reg.rchoice "colour" ["red", "blue"] "colour help" Option.none] :
            List Reg).foldl applyReg Application.init) (Reg.name r) = Option.none) ∧
    ∃ a', Application.parse_args
        (([Reg.rstring "foo" "foo help" "bar",
           Reg.rchoice "colour" ["red", "blue"] "colour help" Option.none] :
            List Reg).foldl applyReg Application.init) [] = .ok a' [] ∧
      ∀ r ∈ ([Reg.rstring "foo" "foo help" "bar",
              Reg.rchoice "colour" ["red", "blue"] "colour help" Option.none] : List Reg),
        Application.get_setting a' (Reg.name r) = some (declaredDefault r) :=
  claim3_defaults_after_parse
    [Reg.rstring "foo" "foo help" "bar",
     Reg.rchoice "colour" ["red", "blue"] "colour help" Option.none]
    (by decide) (by decide) (by decide)
